import Mathlib

/-!
Verification of the cgroupv2 exporter core: a shallow embedding of the
parser framework (`parsers/parsers.go`), the name sanitizer and the
collector orchestration layer (`collector/memory.go`), together with
proofs settling the frozen claims about the specification.

Modelling conventions:
* Go strings are modelled as Lean `String`s (lists of characters); the
  byte/rune distinction only matters for invalid UTF-8, which no claim
  touches.
* `float64` values are modelled exactly, as an inductive `GoFloat` over
  rationals plus the IEEE special values; rounding to 64-bit and
  `ErrRange` overflow/underflow at the extreme boundary of `float64`
  are not modelled (no claim depends on them).
* `bufio.Scanner`'s 64KiB maximum token size is not modelled: lines of
  any length scan successfully.
* Diagnostic logging is modelled only where a claim mentions it (the
  severity chosen by `execute`).
-/

namespace Cgv2

/-! ## Go string primitives -/

/-- `unicode.IsSpace` restricted to the code points of Unicode's
`White_Space` table, which is exactly the set Go consults. -/
def goIsSpace (c : Char) : Bool :=
  c = '\t' ∨ c = '\n' ∨ c = (Char.ofNat 0x0B) ∨ c = (Char.ofNat 0x0C) ∨
  c = '\r' ∨ c = ' ' ∨ c = (Char.ofNat 0x85) ∨ c = (Char.ofNat 0xA0) ∨
  c = (Char.ofNat 0x1680) ∨
  ((Char.ofNat 0x2000) ≤ c ∧ c ≤ (Char.ofNat 0x200A)) ∨
  c = (Char.ofNat 0x2028) ∨ c = (Char.ofNat 0x2029) ∨
  c = (Char.ofNat 0x202F) ∨ c = (Char.ofNat 0x205F) ∨ c = (Char.ofNat 0x3000)

/-- Characters of `strings.TrimSpace`: drop leading and trailing
white space. -/
def trimSpaceList (cs : List Char) : List Char :=
  ((cs.dropWhile goIsSpace).reverse.dropWhile goIsSpace).reverse

/-- `strings.TrimSpace`. -/
def goTrimSpace (s : String) : String :=
  ⟨trimSpaceList s.data⟩

/-- Accumulator loop of `strings.Fields`: split around runs of white
space, never producing empty fields. -/
def fieldsAux : List Char → List Char → List (List Char)
  | [], acc => if acc = [] then [] else [acc.reverse]
  | c :: rest, acc =>
    if goIsSpace c then
      if acc = [] then fieldsAux rest []
      else acc.reverse :: fieldsAux rest []
    else fieldsAux rest (c :: acc)

/-- `strings.Fields`. -/
def goFields (s : String) : List String :=
  (fieldsAux s.data []).map (⟨·⟩)

/-- Accumulator loop of `strings.Split` with a one-character
separator. -/
def splitOnCharAux (sep : Char) : List Char → List Char → List (List Char)
  | [], acc => [acc.reverse]
  | c :: rest, acc =>
    if c = sep then acc.reverse :: splitOnCharAux sep rest []
    else splitOnCharAux sep rest (c :: acc)

/-- `strings.Split(s, sep)` for a one-character separator (the only
form the parsers use: `"="`, `","`, `"-"`). -/
def goSplitChar (s : String) (sep : Char) : List String :=
  (splitOnCharAux sep s.data []).map (⟨·⟩)

/-- `strings.Contains` on character lists. -/
def containsList (need : List Char) : List Char → Bool
  | [] => need.isEmpty
  | c :: t => need.isPrefixOf (c :: t) || containsList need t

/-- `strings.Contains`. -/
def goContains (s sub : String) : Bool :=
  containsList sub.data s.data

/-- `strings.HasSuffix`. -/
def goHasSuffix (s suf : String) : Bool :=
  suf.data.isSuffixOf s.data

/-- `bufio.ScanLines` drops one trailing carriage return from each
line. -/
def dropTrailingCR (cs : List Char) : List Char :=
  match cs.getLast? with
  | some '\r' => cs.dropLast
  | _ => cs

/-- A terminating newline produces no final empty token in
`bufio.Scanner`. -/
def dropFinalEmpty (ls : List (List Char)) : List (List Char) :=
  match ls.getLast? with
  | some [] => ls.dropLast
  | _ => ls

/-- The sequence of lines produced by a `bufio.Scanner` with the
default `ScanLines` split function: split on newline, drop the final
empty token of a newline-terminated input, strip one trailing carriage
return per line. -/
def scanLines (s : String) : List String :=
  ((dropFinalEmpty (splitOnCharAux '\n' s.data [])).map dropTrailingCR).map (⟨·⟩)

/-! ## Numeric primitives

`float64` values are modelled exactly: finite values as rationals,
plus the IEEE special values.  Rounding to 64 bits (and with it Go's
`ErrRange` at the extreme boundary of `float64`) is not modelled; no
claim depends on it. -/

/-- The value space of Go's `float64` as the parsers use it. -/
inductive GoFloat where
  | finite (q : ℚ)
  | posInf
  | negInf
  | nan
deriving DecidableEq, Repr

/-- The rational `m * base ^ k` built through `mkRat` so that concrete
values evaluate inside the kernel. -/
def scaledValue (base : Nat) (m : Int) (k : Int) : ℚ :=
  if 0 ≤ k then mkRat (m * (base ^ k.toNat : Nat)) 1 else mkRat m (base ^ (-k).toNat)

/-- Rational addition through `mkRat` (definitionally evaluable, equal
to `Rat.add`). -/
def qadd (a b : ℚ) : ℚ :=
  mkRat (a.num * b.den + b.num * a.den) (a.den * b.den)

/-- IEEE addition on `GoFloat` (used by counter `Add`). -/
def goAdd : GoFloat → GoFloat → GoFloat
  | .nan, _ => .nan
  | _, .nan => .nan
  | .posInf, .negInf => .nan
  | .negInf, .posInf => .nan
  | .posInf, _ => .posInf
  | _, .posInf => .posInf
  | .negInf, _ => .negInf
  | _, .negInf => .negInf
  | .finite a, .finite b => .finite (qadd a b)

/-- Go `strconv`'s byte lowering restricted to letters (the only
bytes the comparisons distinguish). -/
def lowerChar (c : Char) : Char :=
  if 'A' ≤ c ∧ c ≤ 'Z' then Char.ofNat (c.toNat + 32) else c

/-- `strconv.special`: case-insensitive `inf`/`infinity` with an
optional sign, and unsigned `nan`, matched against the whole string. -/
def parseSpecial (cs : List Char) : Option GoFloat :=
  match cs.map lowerChar with
  | ['i','n','f'] | ['i','n','f','i','n','i','t','y'] => some .posInf
  | ['+','i','n','f'] | ['+','i','n','f','i','n','i','t','y'] => some .posInf
  | ['-','i','n','f'] | ['-','i','n','f','i','n','i','t','y'] => some .negInf
  | ['n','a','n'] => some .nan
  | _ => none

/-- One optional leading sign; `true` means negative. -/
def readSign : List Char → Bool × List Char
  | '+' :: rest => (false, rest)
  | '-' :: rest => (true, rest)
  | cs => (false, cs)

def goIsHexDigit (c : Char) : Bool :=
  c.isDigit ∨ ('a' ≤ c ∧ c ≤ 'f') ∨ ('A' ≤ c ∧ c ≤ 'F')

def digitVal (c : Char) : Nat := c.toNat - '0'.toNat

def hexVal (c : Char) : Nat :=
  if c.isDigit then digitVal c else (lowerChar c).toNat - 'a'.toNat + 10

def natOfDigits (base : Nat) (val : Char → Nat) (ds : List Char) : Nat :=
  ds.foldl (fun acc c => acc * base + val c) 0


/-- Tracker for `strconv.underscoreOK`: the class of the previous
character (start of number, digit or base prefix, underscore, other). -/
inductive USaw | caret | digit | und | other
deriving DecidableEq

def underscoreOKLoop (hexm : Bool) : List Char → USaw → Bool
  | [], saw => saw ≠ .und
  | c :: rest, saw =>
    if c.isDigit ∨ (hexm ∧ ('a' ≤ lowerChar c ∧ lowerChar c ≤ 'f')) then
      underscoreOKLoop hexm rest .digit
    else if c = '_' then
      if saw ≠ USaw.digit then false else underscoreOKLoop hexm rest .und
    else if saw = USaw.und then false
    else underscoreOKLoop hexm rest .other

/-- `strconv.underscoreOK`: underscores may appear only between digits
or between a base prefix and a digit, and never at the end. -/
def underscoreOK (cs : List Char) : Bool :=
  let cs1 := match cs with
    | c :: rest => if c = '+' ∨ c = '-' then rest else c :: rest
    | [] => []
  match cs1 with
  | '0' :: b :: rest =>
    if lowerChar b = 'b' ∨ lowerChar b = 'o' ∨ lowerChar b = 'x' then
      underscoreOKLoop (lowerChar b = 'x') rest .digit
    else underscoreOKLoop false cs1 .caret
  | _ => underscoreOKLoop false cs1 .caret

/-- Split at the first occurrence of either separator character,
returning the parts before and after it. -/
def splitAtChar2 (a b : Char) : List Char → Option (List Char × List Char)
  | [] => none
  | c :: rest =>
    if c = a ∨ c = b then some ([], rest)
    else (splitAtChar2 a b rest).map (fun pr => (c :: pr.1, pr.2))

/-- Mantissa scan of `strconv.readFloat`: digits (hexadecimal when
`hexm`), skipped underscores, and at most one decimal point.  Returns
the digit characters, the number of digits after the point, whether a
point was seen and whether at least one digit was seen. -/
def scanMantAux (hexm : Bool) : List Char → List Char × Nat × Bool × Bool →
    Option (List Char × Nat × Bool × Bool)
  | [], st => some st
  | c :: rest, (ds, sc, sawDot, sawDig) =>
    if (if hexm then goIsHexDigit c else c.isDigit) then
      scanMantAux hexm rest (ds ++ [c], (if sawDot then sc + 1 else sc), sawDot, true)
    else if c = '_' then scanMantAux hexm rest (ds, sc, sawDot, sawDig)
    else if c = '.' then
      if sawDot then none else scanMantAux hexm rest (ds, sc, true, sawDig)
    else none

/-- Exponent digit scan: decimal digits with skipped underscores. -/
def scanExpDigits : List Char → Option (List Char)
  | [] => some []
  | c :: rest =>
    if c.isDigit then (scanExpDigits rest).map (c :: ·)
    else if c = '_' then scanExpDigits rest
    else none

/-- The exponent part after `e`/`E`/`p`/`P`: optional sign, at least
one decimal digit. -/
def parseExpPart (cs : List Char) : Option Int :=
  let (neg, cs1) := readSign cs
  match scanExpDigits cs1 with
  | none => none
  | some ds =>
    if ds = [] then none
    else some (if neg then -(natOfDigits 10 digitVal ds : Int) else (natOfDigits 10 digitVal ds : Int))

/-- The signed mantissa as an integer. -/
def signedMant (neg : Bool) (n : Nat) : Int :=
  if neg then -(n : Int) else (n : Int)

/-- Decimal form: mantissa with optional point, optional decimal
exponent introduced by `e`/`E`. -/
def parseDecValue (neg : Bool) (cs : List Char) : Option GoFloat :=
  let me : List Char × Option (List Char) :=
    match splitAtChar2 'e' 'E' cs with
    | none => (cs, none)
    | some pr => (pr.1, some pr.2)
  match scanMantAux false me.1 ([], 0, false, false) with
  | none => none
  | some (ds, scale, _, sawDig) =>
    if !sawDig then none
    else
      match me.2 with
      | none =>
        some (.finite (scaledValue 10 (signedMant neg (natOfDigits 10 digitVal ds)) (-(scale : Int))))
      | some ecs =>
        match parseExpPart ecs with
        | none => none
        | some e =>
          some (.finite (scaledValue 10 (signedMant neg (natOfDigits 10 digitVal ds)) (e - (scale : Int))))

/-- Hexadecimal form after the `0x` prefix: hex mantissa with optional
point and a mandatory binary exponent introduced by `p`/`P`. -/
def parseHexValue (neg : Bool) (cs : List Char) : Option GoFloat :=
  match splitAtChar2 'p' 'P' cs with
  | none => none
  | some pr =>
    match scanMantAux true pr.1 ([], 0, false, false) with
    | none => none
    | some (ds, scale, _, sawDig) =>
      if !sawDig then none
      else
        match parseExpPart pr.2 with
        | none => none
        | some e =>
          some (.finite (scaledValue 2 (signedMant neg (natOfDigits 16 hexVal ds)) (e - 4 * (scale : Int))))

/-- `strconv.ParseFloat(s, 64)`, success and exact value (rounding and
`ErrRange` at the `float64` range boundary are not modelled). -/
def goParseFloat (s : String) : Option GoFloat :=
  let cs := s.data
  if cs.isEmpty then none
  else
    match parseSpecial cs with
    | some f => some f
    | none =>
      if !underscoreOK cs then none
      else
        let (neg, cs1) := readSign cs
        match cs1 with
        | c0 :: x :: rest =>
          if c0 = '0' ∧ (x = 'x' ∨ x = 'X') then parseHexValue neg rest
          else parseDecValue neg (c0 :: x :: rest)
        | _ => parseDecValue neg cs1

/-- `strconv.Atoi`: optional sign, decimal digits only, 64-bit range. -/
def goAtoi (s : String) : Option Int :=
  let (neg, cs) := readSign s.data
  if cs = [] ∨ ¬ cs.all Char.isDigit then none
  else
    let v : Int := if neg then -(natOfDigits 10 digitVal cs : Int) else (natOfDigits 10 digitVal cs : Int)
    if v < -(2 ^ 63 : Int) ∨ (2 ^ 63 : Int) - 1 < v then none else some v

def natDigitsAux : Nat → Nat → List Char → List Char
  | 0, _, acc => acc
  | fuel + 1, n, acc =>
    if n < 10 then Char.ofNat (n + 48) :: acc
    else natDigitsAux fuel (n / 10) (Char.ofNat (n % 10 + 48) :: acc)

/-- `strconv.Itoa`. -/
def goItoa (i : Int) : String :=
  match i with
  | .ofNat n => ⟨natDigitsAux (n + 1) n []⟩
  | .negSucc m => ⟨'-' :: natDigitsAux (m + 2) (m + 1) []⟩

/-! ## The metric record (`parsers.Metric`) -/

/-- `map[string]string` as an association list; the parsers only ever
build empty or singleton maps. -/
abbrev Labels := List (String × String)

/-- `parsers.Metric`: a parsed metric with its name, value and
labels. -/
structure Metric where
  name : String
  value : GoFloat
  labels : Labels
deriving DecidableEq, Repr

/-! ## The four parsers (`parsers/parsers.go`)

Each `Parse` takes the metric prefix `p` (the `MetricPrefix` field of
the parser struct) and the file content, and returns `none` exactly
where the Go code returns a non-nil error.  Reader and scanner errors
cannot occur on in-memory content and are not modelled. -/

/-- `SingleValueParser.Parse`: trim the content, map the literal
`max` to `+Inf`, otherwise require a parseable float. -/
def singleValueParse (p : String) (input : String) : Option (List Metric) :=
  let content := goTrimSpace input
  if content = "max" then some [⟨p, .posInf, []⟩]
  else
    match goParseFloat content with
    | none => none
    | some v => some [⟨p, v, []⟩]

/-- One line of `FlatKeyValueParser.Parse`: exactly two fields and a
parseable value, else skipped with a diagnostic. -/
def flatLine (p : String) (line : String) : List Metric :=
  match goFields line with
  | [k, v] =>
    match goParseFloat v with
    | some val => [⟨p, val, [("stat", k)]⟩]
    | none => []
  | _ => []

/-- `FlatKeyValueParser.Parse`: the appending scan loop over the
input's lines. -/
def flatKeyValueParse (p : String) (input : String) : Option (List Metric) :=
  some ((scanLines input).foldl (fun acc line => acc ++ flatLine p line) [])

/-- The label key of `NestedKeyValueParser`: `type` for pressure
files, `device` otherwise (substring test on the metric prefix). -/
def nestedLabelName (p : String) : String :=
  if goContains p "pressure" then "type" else "device"

/-- One `key=value` token of `NestedKeyValueParser.Parse` under line
identifier `pfx`: skipped unless splitting on `=` yields exactly two
parts and the value parses. -/
def nestedToken (p pfx : String) (tok : String) : List Metric :=
  match goSplitChar tok '=' with
  | [k, v] =>
    match goParseFloat v with
    | some val => [⟨p ++ "_" ++ k, val, [(nestedLabelName p, pfx)]⟩]
    | none => []
  | _ => []

/-- One line of `NestedKeyValueParser.Parse`: at least two fields,
first field is the sub-entity identifier, the rest are tokens. -/
def nestedLine (p : String) (line : String) : List Metric :=
  match goFields line with
  | [] => []
  | [_] => []
  | pfx :: rest => rest.foldl (fun acc tok => acc ++ nestedToken p pfx tok) []

/-- `NestedKeyValueParser.Parse`. -/
def nestedKeyValueParse (p : String) (input : String) : Option (List Metric) :=
  some ((scanLines input).foldl (fun acc line => acc ++ nestedLine p line) [])

/-- The label key of `RangeListCountParser`: `numanode` for memory
node sets, `cpucore` otherwise (substring test on the metric
prefix). -/
def rangeLabelName (p : String) : String :=
  if goContains p "mems" then "numanode" else "cpucore"

/-- The integers visited by `for i := start; i <= stop; i++`. -/
def intRangeList (a b : Int) : List Int :=
  (List.range (b + 1 - a).toNat).map (fun i => a + (i : Int))

/-- One comma-separated token of `RangeListCountParser.Parse`: an
inclusive range when it contains `-`, otherwise a single integer;
malformed tokens are skipped with a diagnostic. -/
def rangeToken (p lbl : String) (tok : String) : List Metric :=
  let r := goTrimSpace tok
  if goContains r "-" then
    match goSplitChar r '-' with
    | [b0, b1] =>
      match goAtoi b0, goAtoi b1 with
      | some start, some stop =>
        (intRangeList start stop).map (fun i => ⟨p, .finite 1, [(lbl, goItoa i)]⟩)
      | _, _ => []
    | _ => []
  else
    match goAtoi r with
    | some val => [⟨p, .finite 1, [(lbl, goItoa val)]⟩]
    | none => []

/-- One non-blank line of `RangeListCountParser.Parse`. -/
def rangeLine (p lbl : String) (line : String) : List Metric :=
  (goSplitChar line ',').foldl (fun acc tok => acc ++ rangeToken p lbl tok) []

/-- `RangeListCountParser.Parse`. -/
def rangeListCountParse (p : String) (input : String) : Option (List Metric) :=
  let lbl := rangeLabelName p
  some ((scanLines input).foldl
    (fun acc line =>
      let l := goTrimSpace line
      if l = "" then acc else acc ++ rangeLine p lbl l)
    [])

/-! ## The name sanitizer (`collector.sanitizeP8sName`) -/

def isOctalDigit (c : Char) : Bool := '0' ≤ c ∧ c ≤ '7'

def octVal (c : Char) : Nat := c.toNat - '0'.toNat

/-- One escape sequence of `strconv.UnquoteChar` after the backslash:
the decoded character and the remaining input, `none` on a syntax
error.  A `\\u`/`\\U` escape denoting a surrogate is encoded as the
replacement character, as `utf8.AppendRune` does. -/
def unquoteEsc : List Char → Option (Char × List Char)
  | 'a' :: t => some (Char.ofNat 0x07, t)
  | 'b' :: t => some (Char.ofNat 0x08, t)
  | 'f' :: t => some (Char.ofNat 0x0C, t)
  | 'n' :: t => some ('\n', t)
  | 'r' :: t => some ('\r', t)
  | 't' :: t => some ('\t', t)
  | 'v' :: t => some (Char.ofNat 0x0B, t)
  | '\\' :: t => some ('\\', t)
  | '"' :: t => some ('"', t)
  | 'x' :: h1 :: h2 :: t =>
    if goIsHexDigit h1 ∧ goIsHexDigit h2 then
      some (Char.ofNat (16 * hexVal h1 + hexVal h2), t)
    else none
  | 'u' :: h1 :: h2 :: h3 :: h4 :: t =>
    if goIsHexDigit h1 ∧ goIsHexDigit h2 ∧ goIsHexDigit h3 ∧ goIsHexDigit h4 then
      let v := 4096 * hexVal h1 + 256 * hexVal h2 + 16 * hexVal h3 + hexVal h4
      some (Char.ofNat (if 0xD800 ≤ v ∧ v < 0xE000 then 0xFFFD else v), t)
    else none
  | 'U' :: h1 :: h2 :: h3 :: h4 :: h5 :: h6 :: h7 :: h8 :: t =>
    if goIsHexDigit h1 ∧ goIsHexDigit h2 ∧ goIsHexDigit h3 ∧ goIsHexDigit h4 ∧
        goIsHexDigit h5 ∧ goIsHexDigit h6 ∧ goIsHexDigit h7 ∧ goIsHexDigit h8 then
      let v := 16 ^ 7 * hexVal h1 + 16 ^ 6 * hexVal h2 + 16 ^ 5 * hexVal h3 +
        16 ^ 4 * hexVal h4 + 4096 * hexVal h5 + 256 * hexVal h6 + 16 * hexVal h7 + hexVal h8
      if 0x10FFFF < v then none
      else some (Char.ofNat (if 0xD800 ≤ v ∧ v < 0xE000 then 0xFFFD else v), t)
    else none
  | o1 :: o2 :: o3 :: t =>
    if isOctalDigit o1 ∧ isOctalDigit o2 ∧ isOctalDigit o3 then
      let v := 64 * octVal o1 + 8 * octVal o2 + octVal o3
      if 255 < v then none else some (Char.ofNat v, t)
    else none
  | _ => none

/-- The scan of `strconv.Unquote` over the contents of a double-quoted
literal, `none` exactly where `Unquote` reports a syntax error.  The
fuel argument only serves structural recursion: every step consumes at
least one character, so `length + 1` fuel never runs out. -/
def unquoteInnerF : Nat → List Char → Option (List Char)
  | 0, _ => none
  | _ + 1, [] => some []
  | fuel + 1, c :: rest =>
    if c = '"' ∨ c = '\n' then none
    else if c = '\\' then
      match unquoteEsc rest with
      | some dt => (unquoteInnerF fuel dt.2).map (dt.1 :: ·)
      | none => none
    else (unquoteInnerF fuel rest).map (c :: ·)

def unquoteInner (cs : List Char) : Option (List Char) :=
  unquoteInnerF (cs.length + 1) cs

/-- The first step of `sanitizeP8sName`:
`strconv.Unquote("\x22" + name + "\x22")`. -/
def goUnquoteDq (s : String) : Option String :=
  (unquoteInner s.data).map (⟨·⟩)

/-- The character class `[a-zA-Z0-9_:]` kept by the sanitizer. -/
def allowedChar (c : Char) : Bool :=
  ('a' ≤ c ∧ c ≤ 'z') ∨ ('A' ≤ c ∧ c ≤ 'Z') ∨ ('0' ≤ c ∧ c ≤ '9') ∨ c = '_' ∨ c = ':'

/-- The regex replacement of every unsupported character with an
underscore. -/
def replaceDisallowed (cs : List Char) : List Char :=
  cs.map (fun c => if allowedChar c then c else '_')

/-- The regex replacement squeezing every run of underscores to a
single one. -/
def squeezeUnd : List Char → List Char
  | [] => []
  | [c] => [c]
  | c :: d :: rest =>
    if c = '_' ∧ d = '_' then squeezeUnd (d :: rest)
    else c :: squeezeUnd (d :: rest)

/-- `strings.Trim(name, "\x5f")`. -/
def trimUnd (cs : List Char) : List Char :=
  ((cs.dropWhile (· = '_')).reverse.dropWhile (· = '_')).reverse

/-- The first statement of `sanitizeP8sName`: take the unquoted form
when `Unquote` succeeds, keep the name otherwise. -/
def unquoteStep (s : String) : String :=
  match goUnquoteDq s with
  | some u => u
  | none => s

/-- `collector.sanitizeP8sName`: undo backslash escape sequences when
the whole name is a validly escaped form, replace unsupported
characters with underscores, squeeze underscore runs, trim boundary
underscores. -/
def sanitizeP8sName (s : String) : String :=
  ⟨trimUnd (squeezeUnd (replaceDisallowed (unquoteStep s).data))⟩

/-! ## Association-list helpers

Go maps keyed by strings or label combinations, as association
lists. -/

def alookup {κ α : Type} [DecidableEq κ] : List (κ × α) → κ → Option α
  | [], _ => none
  | (k', v) :: t, k => if k' = k then some v else alookup t k

def aset {κ α : Type} [DecidableEq κ] : List (κ × α) → κ → α → List (κ × α)
  | [], k, v => [(k, v)]
  | (k', v') :: t, k, v => if k' = k then (k, v) :: t else (k', v') :: aset t k v

/-! ## The File Collector (`collector.Cgroupv2FileCollector`) -/

/-- `path/filepath.Base` on Unix paths: strip trailing slashes and
keep the last element. -/
def goFilepathBase (path : String) : String :=
  if path = "" then "."
  else
    let cs := (path.data.reverse.dropWhile (· = '/')).reverse
    if cs = [] then "/"
    else ⟨(cs.reverse.takeWhile (· ≠ '/')).reverse⟩

/-- `filepath.Join(dir, file)`.  `Join` also runs `Clean` on the
result; since the file system is abstract here, cleaning would only
rename its keys, so it is not modelled. -/
def goJoin (dir file : String) : String :=
  dir ++ "/" ++ file

/-- Which kind of exposition vector a metric lives in. -/
inductive VecKind | gauge | counter
deriving DecidableEq, Repr

/-- One exposed sample of an exposition vector. -/
structure Sample where
  name : String
  labels : Labels
  value : GoFloat
  kind : VecKind
deriving DecidableEq, Repr

/-- An exposition vector: one value per label combination. -/
abbrev Vec := List (Labels × GoFloat)

/-- The two per-collector vector caches (`gaugeVecs`,
`counterVecs`), keyed by sanitized metric name. -/
structure FcState where
  gaugeVecs : List (String × Vec)
  counterVecs : List (String × Vec)
deriving DecidableEq, Repr

def emptyFcState : FcState := ⟨[], []⟩

/-- The errors `Update` can report, plus the `ErrNoData` sentinel of
the collector package. -/
inductive UpdateErr
  | openFailed (dir : String)
  | parseFailed (dir : String)
  | noData
deriving DecidableEq, Repr

/-- `collector.IsNoDataError`. -/
def isNoDataError (e : UpdateErr) : Bool := e = .noData

/-- A vector's `Collect`: emit every current label combination. -/
def collectVec (name : String) (kind : VecKind) (vec : Vec) : List Sample :=
  vec.map (fun lv => ⟨name, lv.1, lv.2, kind⟩)

def kindOf (b : Bool) : VecKind := if b then .counter else .gauge

/-- A counter vector's `WithLabelValues(..).Add(v)`: the combination
is created at zero when absent, then the value is added. -/
def counterVecAdd (vec : Vec) (combo : Labels) (v : GoFloat) : Vec :=
  match alookup vec combo with
  | some old => aset vec combo (goAdd old v)
  | none => aset vec combo (goAdd (.finite 0) v)

/-- The updated counter vector for one record: the cached vector for
the sanitized name (lazily created empty), with the record's value
added under the full label combination. -/
def newCounterVec (st : FcState) (r : Metric) (cg : String) : Vec :=
  counterVecAdd ((alookup st.counterVecs (sanitizeP8sName r.name)).getD [])
    (("cgroup", cg) :: r.labels) r.value

/-- The updated gauge vector for one record: the cached vector for
the sanitized name (lazily created empty), with the record's value
set under the full label combination
(`WithLabelValues(..).Set(v)`). -/
def newGaugeVec (st : FcState) (r : Metric) (cg : String) : Vec :=
  aset ((alookup st.gaugeVecs (sanitizeP8sName r.name)).getD [])
    (("cgroup", cg) :: r.labels) r.value

/-- Modelled from the spec: the per-record step of
`Cgroupv2FileCollector.Update` (§4.3 step 4).  The `Update` body under
`src/collector/memory.go` predates the `[]Metric` parser interface and
no longer type-checks against it, so the current body is missing from
the sources; this step follows the spec's words: sanitize the record
name, select the counter or gauge vector via `is_counter(name,
labels)`, lazily creating it first-seen-wins, add (counter) or set
(gauge) the record's value under the label combination
`(cgroup, cgroup_name)` followed by the record's own labels, and emit
the vector's current contents. -/
def processRecord (isCtr : String → Labels → Bool) (cg : String) (st : FcState) (r : Metric) :
    FcState × List Sample :=
  if isCtr (sanitizeP8sName r.name) r.labels then
    ({ st with counterVecs := aset st.counterVecs (sanitizeP8sName r.name) (newCounterVec st r cg) },
      collectVec (sanitizeP8sName r.name) .counter (newCounterVec st r cg))
  else
    ({ st with gaugeVecs := aset st.gaugeVecs (sanitizeP8sName r.name) (newGaugeVec st r cg) },
      collectVec (sanitizeP8sName r.name) .gauge (newGaugeVec st r cg))

/-- Modelled from the spec: the record loop of
`Cgroupv2FileCollector.Update` for one directory. -/
def processRecords (isCtr : String → Labels → Bool) (cg : String) :
    FcState → List Metric → FcState × List Sample
  | st, [] => (st, [])
  | st, r :: rest =>
    let pr := processRecord isCtr cg st r
    let pr2 := processRecords isCtr cg pr.1 rest
    (pr2.1, pr.2 ++ pr2.2)

/-- Modelled from the spec: `Cgroupv2FileCollector.Update` (§4.3).
`fs` is the read-only pseudo-file system; `parse` is the bound
parser.  Directories are processed in input order; an open or parse
failure is fatal for the scrape and reported immediately. -/
def updateGo (parse : String → Option (List Metric)) (isCtr : String → Labels → Bool)
    (fileName : String) (fs : String → Option String) :
    FcState → List String → FcState × List Sample × Option UpdateErr
  | st, [] => (st, [], none)
  | st, d :: rest =>
    match fs (goJoin d fileName) with
    | none => (st, [], some (.openFailed d))
    | some content =>
      match parse content with
      | none => (st, [], some (.parseFailed d))
      | some recs =>
        let pr := processRecords isCtr (sanitizeP8sName (goFilepathBase d)) st recs
        let pr2 := updateGo parse isCtr fileName fs pr.1 rest
        (pr2.1, pr.2 ++ pr2.2.1, pr2.2.2)

/-- Modelled from the spec: one whole scrape of a freshly constructed
File Collector (empty caches, per §3 every run starts from an empty
cache). -/
def fcUpdate (parse : String → Option (List Metric)) (isCtr : String → Labels → Bool)
    (fileName : String) (fs : String → Option String) (dirs : List String) :
    FcState × List Sample × Option UpdateErr :=
  updateGo parse isCtr fileName fs emptyFcState dirs

/-- The metric records the bound parser produces for one tracked
directory, `none` when the open or the parse fails. -/
def dirRecords (parse : String → Option (List Metric)) (fileName : String)
    (fs : String → Option String) (d : String) : Option (List Metric) :=
  match fs (goJoin d fileName) with
  | none => none
  | some content => parse content

/-- The cache of one vector kind. -/
def vecsOf (st : FcState) : VecKind → List (String × Vec)
  | .gauge => st.gaugeVecs
  | .counter => st.counterVecs

/-- A label combination currently present in one of the collector's
cached vectors. -/
def stateHas (st : FcState) (n : String) (c : Labels) (k : VecKind) : Prop :=
  ∃ vec v, (n, vec) ∈ vecsOf st k ∧ (c, v) ∈ vec

/-- The provenance a sample must have by the File Collector claim:
it stems from some tracked directory's parsed record, named by the
sanitized record name, labeled by the directory's `cgroup` label
followed by the record's own labels, and living in the vector kind
selected by `is_counter(name, labels)`. -/
def dirProv (parse : String → Option (List Metric)) (fileName : String)
    (fs : String → Option String) (isCtr : String → Labels → Bool)
    (dirs : List String) (n : String) (c : Labels) (k : VecKind) : Prop :=
  ∃ d ∈ dirs, ∃ recs, dirRecords parse fileName fs d = some recs ∧
    ∃ r ∈ recs, n = sanitizeP8sName r.name ∧
      c = ("cgroup", sanitizeP8sName (goFilepathBase d)) :: r.labels ∧
      k = kindOf (isCtr (sanitizeP8sName r.name) r.labels)

/-! ## The Aggregate Collector (`execute`, `Cgroup2Collector.Collect`) -/

/-- The two instrumentation families `scrapeDurationDesc` and
`scrapeSuccessDesc`. -/
inductive InstrKind | scrapeDuration | scrapeSuccess
deriving DecidableEq, Repr

/-- What flows into the metric channel: collected samples and
instrumentation metrics labeled by collector name. -/
inductive ChanItem
  | sample (s : Sample)
  | instr (k : InstrKind) (value : GoFloat) (collector : String)
deriving DecidableEq, Repr

inductive LogLevel | debug | error
deriving DecidableEq, Repr

/-- One collector's behavior during a scrape: the samples its
`Update` emitted, the error it returned, and its measured wall-clock
duration (left abstract). -/
structure CollectorRun where
  name : String
  emitted : List Sample
  err : Option UpdateErr
  duration : GoFloat
deriving DecidableEq, Repr

/-- The success indicator computed by `execute`: `1` when `Update`
returned nil, `0` otherwise. -/
def successVal (err : Option UpdateErr) : GoFloat :=
  match err with
  | none => .finite 1
  | some _ => .finite 0

/-- Everything `execute` sends to the channel for one collector: the
collector's own samples, then the duration gauge and the success
indicator, both labeled by collector name. -/
def executeItems (c : CollectorRun) : List ChanItem :=
  c.emitted.map .sample ++
    [.instr .scrapeDuration c.duration c.name, .instr .scrapeSuccess (successVal c.err) c.name]

/-- The severity `execute` logs at: debug on success and on the
no-data sentinel, error otherwise. -/
def executeLogLevel (c : CollectorRun) : LogLevel :=
  match c.err with
  | none => .debug
  | some e => if isNoDataError e then .debug else .error

/-- `Cgroup2Collector.Collect`: every collector runs and reports.
The goroutines' channel writes interleave nondeterministically; the
claims only concern each collector's own items, so the interleaving is
modelled as concatenation in map order. -/
def collectRun (cols : List CollectorRun) : List ChanItem :=
  cols.flatMap executeItems

/-- The instrumentation items carrying a given collector label. -/
def isInstrFor (n : String) : ChanItem → Bool
  | .instr _ _ m => m = n
  | .sample _ => false

/-! ## The Collector Registry (`NewCgroupv2Collector`)

Factories are memoized under `initiatedCollectorsMtx`; instance
identity is modelled by numbering constructions.  The factories in the
repository never return a non-nil error, so factory errors are not
modelled.  All cache reads and writes happen inside the mutex, so any
concurrent execution is equivalent to a sequential interleaving of
resolution calls, which is what `resolveSeq` quantifies over. -/

structure Registry where
  collectorState : List (String × Bool)
  initiated : List (String × Nat)
  nextId : Nat
  factoryCalls : List String
deriving DecidableEq, Repr

inductive RegErr
  | missingCollector (name : String)
  | disabledCollector (name : String)
deriving DecidableEq, Repr

/-- The filter-validation loop at the top of `NewCgroupv2Collector`:
each filter name must exist and be enabled. -/
def validateFilters (states : List (String × Bool)) : List String → Option RegErr
  | [] => none
  | fl :: rest =>
    match alookup states fl with
    | none => some (.missingCollector fl)
    | some enabled => if !enabled then some (.disabledCollector fl) else validateFilters states rest

/-- The collector-construction loop of `NewCgroupv2Collector`, run
under the shared mutex: skip disabled or filtered-out entries, reuse
the cached singleton when present, otherwise invoke the factory once
and memoize. -/
def resolveLoop (filters : List String) :
    List (String × Bool) → Registry → List (String × Nat) → List (String × Nat) × Registry
  | [], st, acc => (acc, st)
  | (key, enabled) :: rest, st, acc =>
    if !enabled ∨ (filters ≠ [] ∧ ¬ key ∈ filters) then resolveLoop filters rest st acc
    else
      match alookup st.initiated key with
      | some inst => resolveLoop filters rest st (aset acc key inst)
      | none =>
        let inst := st.nextId
        resolveLoop filters rest
          { st with
            initiated := aset st.initiated key inst
            nextId := st.nextId + 1
            factoryCalls := st.factoryCalls ++ [key] }
          (aset acc key inst)

/-- `NewCgroupv2Collector`: validate the name filter, then resolve
every enabled (and, when filtered, selected) collector against the
singleton cache. -/
def resolve (st : Registry) (filters : List String) :
    Option RegErr × List (String × Nat) × Registry :=
  match validateFilters st.collectorState filters with
  | some e => (some e, [], st)
  | none =>
    let pr := resolveLoop filters st.collectorState st []
    (none, pr.1, pr.2)

/-- A sequence of resolution calls (§4.4); concurrent calls are
serialized by the registry mutex, so sequences cover them. -/
def resolveSeq : Registry → List (List String) → Registry × List (Option RegErr × List (String × Nat))
  | st, [] => (st, [])
  | st, fl :: rest =>
    let r := resolve st fl
    let out := resolveSeq r.2.2 rest
    (out.1, (r.1, r.2.1) :: out.2)

/-- A registry whose singleton cache is empty and whose factory has
never run, as at process start. -/
def freshRegistry (states : List (String × Bool)) : Registry :=
  ⟨states, [], 0, []⟩

/-! ## Notions taken from the claims' wording

These definitions transcribe the claims, to be compared with the
code-side functions above. -/

/-- A well-formed flat key-value line in the claims' sense: exactly
two whitespace-separated fields with a parseable float value. -/
def flatWellFormed (line : String) : Bool :=
  match goFields line with
  | [_, v] => (goParseFloat v).isSome
  | _ => false

/-- A well-formed `key=value` token in the claims' sense. -/
def nestedTokenWF (tok : String) : Bool :=
  match goSplitChar tok '=' with
  | [_, v] => (goParseFloat v).isSome
  | _ => false

/-- How many records the nested key-value claim expects from one
line: the number of well-formed tokens after the identifier, on lines
with at least two fields. -/
def nestedLineCount (line : String) : Nat :=
  match goFields line with
  | _ :: tok1 :: toks => (tok1 :: toks).countP nestedTokenWF
  | _ => 0

/-- The integers covered by one comma-separated token of a range
list: an inclusive range when the token contains a dash, a singleton
otherwise, nothing when malformed. -/
def tokenCovered (tok : String) : List Int :=
  let r := goTrimSpace tok
  if goContains r "-" then
    match goSplitChar r '-' with
    | [b0, b1] =>
      match goAtoi b0, goAtoi b1 with
      | some a, some b => intRangeList a b
      | _, _ => []
    | _ => []
  else
    match goAtoi r with
    | some v => [v]
    | none => []

/-- The integers covered by the whole range-list input, one
occurrence per covering token occurrence. -/
def coveredInts (input : String) : List Int :=
  (scanLines input).flatMap (fun line =>
    let l := goTrimSpace line
    if l = "" then [] else (goSplitChar l ',').flatMap tokenCovered)

/-- No two consecutive underscores. -/
def noDoubleUnd : List Char → Bool
  | [] => true
  | [_] => true
  | c :: d :: rest => !(c = '_' ∧ d = '_') && noDoubleUnd (d :: rest)

/-- Whether a resolution outcome is an unknown-collector error. -/
def isMissingErr : Option RegErr → Bool
  | some (.missingCollector _) => true
  | _ => false

/-- The invariant the registry maintains: singleton-cache keys are
unique, and the factory for a name has run exactly once when the name
is cached and never otherwise. -/
def RegInv (st : Registry) : Prop :=
  (st.initiated.map Prod.fst).Nodup ∧
  ∀ n : String, st.factoryCalls.count n = (if (alookup st.initiated n).isSome then 1 else 0)

end Cgv2

namespace Cgv2

example : goParseFloat "1234" = some (.finite (mkRat 1234 1)) := by decide
example : goParseFloat "1.23" = some (.finite (mkRat 123 100)) := by decide
example : goParseFloat "-4.5e2" = some (.finite (mkRat (-450) 1)) := by decide
example : goParseFloat "max" = none := by decide
example : goParseFloat "" = none := by decide
example : goParseFloat "Inf" = some .posInf := by decide
example : goParseFloat "1_0" = some (.finite (mkRat 10 1)) := by decide
example : goParseFloat "_1" = none := by decide
example : goParseFloat "1_" = none := by decide
example : goParseFloat "0x1p-2" = some (.finite (mkRat 1 4)) := by decide
example : goParseFloat "1e" = none := by decide
example : goParseFloat "1.2.3" = none := by decide
example : goAtoi "10" = some 10 := by decide
example : goAtoi "-3" = some (-3) := by decide
example : goAtoi "" = none := by decide
example : goAtoi "1.5" = none := by decide
example : goItoa 0 = "0" := by decide
example : goItoa 259 = "259" := by decide
example : goItoa (-12) = "-12" := by decide

example : goFields "some avg10=1.23  total=1234" = ["some", "avg10=1.23", "total=1234"] := by decide
example : scanLines "a\nb\n" = ["a", "b"] := by decide
example : scanLines "" = [] := by decide
example : scanLines "a\r\n\nb" = ["a", "", "b"] := by decide
example : goSplitChar "0-3" '-' = ["0", "3"] := by decide
example : goContains "memory_pressure" "pressure" = true := by decide
example : goContains "cpuset_cpus" "mems" = false := by decide
example : goTrimSpace "  max \n" = "max" := by decide

example : singleValueParse "memory_current" "5678" =
    some [⟨"memory_current", .finite (mkRat 5678 1), []⟩] := by decide
example : singleValueParse "memory_high" "max" = some [⟨"memory_high", .posInf, []⟩] := by decide
example : singleValueParse "memory_high" "garbage" = none := by decide

example : flatKeyValueParse "memory_events" "low 0\nhigh 5335362\n" =
    some [⟨"memory_events", .finite (mkRat 0 1), [("stat", "low")]⟩,
          ⟨"memory_events", .finite (mkRat 5335362 1), [("stat", "high")]⟩] := by decide

example : nestedKeyValueParse "memory_pressure" "some avg10=1.23 total=1234\nfull avg10=5.67 total=5678" =
    some [⟨"memory_pressure_avg10", .finite (mkRat 123 100), [("type", "some")]⟩,
          ⟨"memory_pressure_total", .finite (mkRat 1234 1), [("type", "some")]⟩,
          ⟨"memory_pressure_avg10", .finite (mkRat 567 100), [("type", "full")]⟩,
          ⟨"memory_pressure_total", .finite (mkRat 5678 1), [("type", "full")]⟩] := by decide

example : nestedKeyValueParse "io_stat" "259:0 rbytes=100 wbytes=200" =
    some [⟨"io_stat_rbytes", .finite (mkRat 100 1), [("device", "259:0")]⟩,
          ⟨"io_stat_wbytes", .finite (mkRat 200 1), [("device", "259:0")]⟩] := by decide

example : (rangeListCountParse "cpuset_cpus" "0-3,8,10-11").map
      (fun ms => ms.map (fun m => m.labels)) =
    some [[("cpucore", "0")], [("cpucore", "1")], [("cpucore", "2")], [("cpucore", "3")],
          [("cpucore", "8")], [("cpucore", "10")], [("cpucore", "11")]] := by decide
example : rangeListCountParse "cpuset_mems" "0-1" =
    some [⟨"cpuset_mems", .finite 1, [("numanode", "0")]⟩,
          ⟨"cpuset_mems", .finite 1, [("numanode", "1")]⟩] := by decide
example : rangeListCountParse "cpuset_cpus" "" = some [] := by decide
example : rangeListCountParse "cpuset_cpus" "  \n " = some [] := by decide

example : sanitizeP8sName "memory.pressure" = "memory_pressure" := by decide
example : sanitizeP8sName "my\\x2dcgroup" = "my_cgroup" := by decide
example : sanitizeP8sName "__a__b__" = "a_b" := by decide
example : sanitizeP8sName "a:b" = "a:b" := by decide

/-! ## Generic lemmas -/

theorem foldl_append_eq_flatMap {α β : Type} (f : α → List β) :
    ∀ (l : List α) (acc : List β), l.foldl (fun a x => a ++ f x) acc = acc ++ l.flatMap f := by
  intro l
  induction l with
  | nil => intro acc; simp
  | cons x t ih => intro acc; simp [ih, List.append_assoc]

/-! ## C3: the single-value parser -/

/-- C3: on every input, the single-value parser maps trimmed `max`
to exactly one record with value `+Inf` and no labels, maps trimmed
content that parses as a float `v` to exactly one record with value
`v` and no labels, and fails on everything else. -/
theorem singleValue_claim (p input : String) :
    (goTrimSpace input = "max" →
      singleValueParse p input = some [⟨p, .posInf, []⟩]) ∧
    (∀ v, goParseFloat (goTrimSpace input) = some v →
      singleValueParse p input = some [⟨p, v, []⟩]) ∧
    (goTrimSpace input ≠ "max" → goParseFloat (goTrimSpace input) = none →
      singleValueParse p input = none) := by
  refine ⟨fun h => by simp [singleValueParse, h], fun v hv => ?_, fun hne hn => ?_⟩
  · by_cases hmax : goTrimSpace input = "max"
    · rw [hmax] at hv
      have hnone : goParseFloat "max" = none := by decide
      rw [hnone] at hv
      exact Option.noConfusion hv
    · simp [singleValueParse, hmax, hv]
  · simp [singleValueParse, hne, hn]

theorem singleValue_claim_witness :
    singleValueParse "memory_high" " max\n" = some [⟨"memory_high", .posInf, []⟩] ∧
    singleValueParse "memory_current" "5678\n" =
      some [⟨"memory_current", .finite (mkRat 5678 1), []⟩] ∧
    singleValueParse "memory_current" "garbage" = none :=
  ⟨(singleValue_claim "memory_high" " max\n").1 (by decide),
   (singleValue_claim "memory_current" "5678\n").2.1 (.finite (mkRat 5678 1)) (by decide),
   (singleValue_claim "memory_current" "garbage").2.2 (by decide) (by decide)⟩

/-! ## C5: the flat key-value parser -/

theorem flatKeyValueParse_eq (p input : String) :
    flatKeyValueParse p input = some ((scanLines input).flatMap (flatLine p)) := by
  simp [flatKeyValueParse, foldl_append_eq_flatMap]

theorem flatLine_length (p line : String) :
    (flatLine p line).length = if flatWellFormed line then 1 else 0 := by
  unfold flatLine flatWellFormed
  cases h : goFields line with
  | nil => simp
  | cons k t =>
    cases t with
    | nil => simp
    | cons v t2 =>
      cases t2 with
      | nil => cases h2 : goParseFloat v <;> simp [h2]
      | cons c t3 => simp

theorem flatLines_length (p : String) :
    ∀ lines : List String, (lines.flatMap (flatLine p)).length = lines.countP flatWellFormed := by
  intro lines
  induction lines with
  | nil => simp
  | cons l t ih =>
    rw [List.flatMap_cons, List.countP_cons, List.length_append, ih, flatLine_length]
    cases hw : flatWellFormed l with
    | true => simp [hw]; omega
    | false => simp [hw]

theorem flatLine_mem (p line : String) (m : Metric) (h : m ∈ flatLine p line) :
    ∃ k v val, goFields line = [k, v] ∧ goParseFloat v = some val ∧
      m = ⟨p, val, [("stat", k)]⟩ := by
  unfold flatLine at h
  cases hf : goFields line with
  | nil => rw [hf] at h; exact absurd h (List.not_mem_nil m)
  | cons k t =>
    cases t with
    | nil => rw [hf] at h; exact absurd h (List.not_mem_nil m)
    | cons v t2 =>
      cases t2 with
      | nil =>
        rw [hf] at h
        replace h : m ∈ (match goParseFloat v with
          | some val => [(⟨p, val, [("stat", k)]⟩ : Metric)]
          | none => ([] : List Metric)) := h
        cases hpf : goParseFloat v with
        | none =>
          try rw [hpf] at h
          exact absurd h (List.not_mem_nil m)
        | some val =>
          try rw [hpf] at h
          rw [List.mem_singleton] at h
          exact ⟨k, v, val, rfl, hpf, h⟩
      | cons c t3 => rw [hf] at h; exact absurd h (List.not_mem_nil m)

/-- C5: the flat key-value parser never fails; it emits exactly one
record per well-formed line (two fields, parseable value), carrying
the metric prefix as name, the parsed value and the `stat` label; and
turning one well-formed line into a malformed one reduces the record
count by exactly one. -/
theorem flatKeyValue_claim (p input : String) :
    (∃ ms, flatKeyValueParse p input = some ms ∧
      ms.length = (scanLines input).countP flatWellFormed ∧
      (∀ m ∈ ms, ∃ line ∈ scanLines input, ∃ k v val,
        goFields line = [k, v] ∧ goParseFloat v = some val ∧
          m = ⟨p, val, [("stat", k)]⟩)) ∧
    (∀ goodLines badLine goodLine (otherLines : List String),
      flatWellFormed badLine = false → flatWellFormed goodLine = true →
      ((goodLines ++ badLine :: otherLines).flatMap (flatLine p)).length + 1 =
        ((goodLines ++ goodLine :: otherLines).flatMap (flatLine p)).length) := by
  constructor
  · refine ⟨(scanLines input).flatMap (flatLine p), flatKeyValueParse_eq p input,
      flatLines_length p _, fun m hm => ?_⟩
    rw [List.mem_flatMap] at hm
    obtain ⟨line, hline, hmem⟩ := hm
    obtain ⟨k, v, val, h1, h2, h3⟩ := flatLine_mem p line m hmem
    exact ⟨line, hline, k, v, val, h1, h2, h3⟩
  · intro goodLines badLine goodLine otherLines hbad hgood
    rw [flatLines_length, flatLines_length, List.countP_append, List.countP_append,
      List.countP_cons, List.countP_cons, hbad, hgood]
    simp
    omega

/-! ## C2: the nested key-value parser -/

theorem nestedKeyValueParse_eq (p input : String) :
    nestedKeyValueParse p input = some ((scanLines input).flatMap (nestedLine p)) := by
  simp [nestedKeyValueParse, foldl_append_eq_flatMap]

theorem nestedLine_eq (p line : String) :
    nestedLine p line = (match goFields line with
      | pfx :: tok1 :: toks => (tok1 :: toks).flatMap (nestedToken p pfx)
      | _ => []) := by
  unfold nestedLine
  cases hf : goFields line with
  | nil => rfl
  | cons pfx t =>
    cases t with
    | nil => rfl
    | cons tok1 toks =>
      show (tok1 :: toks).foldl (fun acc tok => acc ++ nestedToken p pfx tok) [] =
        (tok1 :: toks).flatMap (nestedToken p pfx)
      rw [foldl_append_eq_flatMap]
      simp

theorem nestedToken_length (p pfx tok : String) :
    (nestedToken p pfx tok).length = if nestedTokenWF tok then 1 else 0 := by
  unfold nestedToken nestedTokenWF
  cases h : goSplitChar tok '=' with
  | nil => simp
  | cons k t =>
    cases t with
    | nil => simp
    | cons v t2 =>
      cases t2 with
      | nil => cases h2 : goParseFloat v <;> simp [h2]
      | cons c t3 => simp

theorem nestedToken_mem (p pfx tok : String) (m : Metric) (h : m ∈ nestedToken p pfx tok) :
    ∃ k v val, goSplitChar tok '=' = [k, v] ∧ goParseFloat v = some val ∧
      m = ⟨p ++ "_" ++ k, val, [(nestedLabelName p, pfx)]⟩ := by
  unfold nestedToken at h
  cases hf : goSplitChar tok '=' with
  | nil => rw [hf] at h; exact absurd h (List.not_mem_nil m)
  | cons k t =>
    cases t with
    | nil => rw [hf] at h; exact absurd h (List.not_mem_nil m)
    | cons v t2 =>
      cases t2 with
      | nil =>
        rw [hf] at h
        replace h : m ∈ (match goParseFloat v with
          | some val => [(⟨p ++ "_" ++ k, val, [(nestedLabelName p, pfx)]⟩ : Metric)]
          | none => ([] : List Metric)) := h
        cases hpf : goParseFloat v with
        | none =>
          try rw [hpf] at h
          exact absurd h (List.not_mem_nil m)
        | some val =>
          try rw [hpf] at h
          rw [List.mem_singleton] at h
          exact ⟨k, v, val, rfl, hpf, h⟩
      | cons c t3 => rw [hf] at h; exact absurd h (List.not_mem_nil m)

theorem nestedTokens_length (p pfx : String) :
    ∀ toks : List String,
      (toks.flatMap (nestedToken p pfx)).length = toks.countP nestedTokenWF := by
  intro toks
  induction toks with
  | nil => simp
  | cons tok t ih =>
    rw [List.flatMap_cons, List.countP_cons, List.length_append, ih, nestedToken_length]
    cases hw : nestedTokenWF tok with
    | true => simp [hw]; omega
    | false => simp [hw]

theorem nestedLine_length (p line : String) :
    (nestedLine p line).length = nestedLineCount line := by
  rw [nestedLine_eq]
  unfold nestedLineCount
  cases hf : goFields line with
  | nil => rfl
  | cons pfx t =>
    cases t with
    | nil => rfl
    | cons tok1 toks => exact nestedTokens_length p pfx (tok1 :: toks)

theorem nestedLine_mem (p line : String) (m : Metric) (h : m ∈ nestedLine p line) :
    ∃ pfx toks, goFields line = pfx :: toks ∧ toks ≠ [] ∧
      ∃ tok ∈ toks, m ∈ nestedToken p pfx tok := by
  rw [nestedLine_eq] at h
  cases hf : goFields line with
  | nil => rw [hf] at h; exact absurd h (List.not_mem_nil m)
  | cons pfx t =>
    cases t with
    | nil => rw [hf] at h; exact absurd h (List.not_mem_nil m)
    | cons tok1 toks =>
      rw [hf] at h
      replace h : m ∈ (tok1 :: toks).flatMap (nestedToken p pfx) := h
      rw [List.mem_flatMap] at h
      obtain ⟨tok, htok, hm⟩ := h
      exact ⟨pfx, tok1 :: toks, rfl, List.cons_ne_nil tok1 toks, tok, htok, hm⟩

/-- C2: the nested key-value parser never fails; the record count is
the sum over lines with at least two fields of their well-formed
`key=value` token count; every record is named `metric_prefix + "_" +
key` and carries exactly one label whose key is `type` for pressure
prefixes and `device` otherwise, valued at the line's first field;
malformed tokens are skipped. -/
theorem nestedKeyValue_claim (p input : String) :
    ∃ ms, nestedKeyValueParse p input = some ms ∧
      ms.length = ((scanLines input).map nestedLineCount).sum ∧
      (∀ m ∈ ms, ∃ line ∈ scanLines input, ∃ pfx toks, goFields line = pfx :: toks ∧ toks ≠ [] ∧
        ∃ tok ∈ toks, ∃ k v val, goSplitChar tok '=' = [k, v] ∧ goParseFloat v = some val ∧
          m = ⟨p ++ "_" ++ k, val, [(nestedLabelName p, pfx)]⟩) ∧
      nestedLabelName p = (if goContains p "pressure" then "type" else "device") := by
  refine ⟨(scanLines input).flatMap (nestedLine p), nestedKeyValueParse_eq p input, ?_, ?_, rfl⟩
  · induction scanLines input with
    | nil => simp
    | cons l t ih => simp [List.flatMap_cons, nestedLine_length, ih]
  · intro m hm
    rw [List.mem_flatMap] at hm
    obtain ⟨line, hline, hmem⟩ := hm
    obtain ⟨pfx, toks, h1, h2, tok, htok, hm2⟩ := nestedLine_mem p line m hmem
    obtain ⟨k, v, val, h3, h4, h5⟩ := nestedToken_mem p pfx tok m hm2
    exact ⟨line, hline, pfx, toks, h1, h2, tok, htok, k, v, val, h3, h4, h5⟩

theorem nestedKeyValue_claim_witness :
    ∃ line ∈ scanLines "some avg10=1.23 bogus total=1234",
      ∃ pfx toks, goFields line = pfx :: toks ∧ toks ≠ [] ∧
        ∃ tok ∈ toks, ∃ k v val, goSplitChar tok '=' = [k, v] ∧ goParseFloat v = some val ∧
          (⟨"memory_pressure_avg10", .finite (mkRat 123 100), [("type", "some")]⟩ : Metric) =
            ⟨"memory_pressure" ++ "_" ++ k, val, [(nestedLabelName "memory_pressure", pfx)]⟩ := by
  obtain ⟨ms, hms, -, hmem, -⟩ :=
    nestedKeyValue_claim "memory_pressure" "some avg10=1.23 bogus total=1234"
  have hconc : nestedKeyValueParse "memory_pressure" "some avg10=1.23 bogus total=1234" =
      some [⟨"memory_pressure_avg10", .finite (mkRat 123 100), [("type", "some")]⟩,
        ⟨"memory_pressure_total", .finite (mkRat 1234 1), [("type", "some")]⟩] := by decide
  rw [hconc] at hms
  obtain rfl : _ = ms := Option.some.inj hms
  exact hmem _ (by decide)

/-! ## C4: the range-list parser -/

theorem rangeToken_eq (p lbl tok : String) :
    rangeToken p lbl tok =
      (tokenCovered tok).map (fun i => ⟨p, .finite 1, [(lbl, goItoa i)]⟩) := by
  unfold rangeToken tokenCovered
  cases hc : goContains (goTrimSpace tok) "-" with
  | true =>
    cases hs : goSplitChar (goTrimSpace tok) '-' with
    | nil => simp [hc, hs]
    | cons b0 t =>
      cases t with
      | nil => simp [hc, hs]
      | cons b1 t2 =>
        cases t2 with
        | nil =>
          cases h0 : goAtoi b0 with
          | none => simp [hc, hs, h0]
          | some a =>
            cases h1 : goAtoi b1 with
            | none => simp [hc, hs, h0, h1]
            | some b => simp [hc, hs, h0, h1]
        | cons c t3 => simp [hc, hs]
  | false =>
    cases ha : goAtoi (goTrimSpace tok) with
    | none => simp [hc, ha]
    | some v => simp [hc, ha]

theorem rangeLine_eq (p lbl l : String) :
    rangeLine p lbl l =
      ((goSplitChar l ',').flatMap tokenCovered).map
        (fun i => ⟨p, .finite 1, [(lbl, goItoa i)]⟩) := by
  unfold rangeLine
  rw [foldl_append_eq_flatMap]
  rw [List.nil_append]
  induction goSplitChar l ',' with
  | nil => simp
  | cons tok t ih => simp [List.flatMap_cons, rangeToken_eq, ih]

theorem rangeListCountParse_eq (p input : String) :
    rangeListCountParse p input =
      some ((coveredInts input).map
        (fun i => ⟨p, .finite 1, [(rangeLabelName p, goItoa i)]⟩)) := by
  simp only [rangeListCountParse, coveredInts, Option.some_inj]
  have hstep : (fun (acc : List Metric) (line : String) =>
      if goTrimSpace line = "" then acc
      else acc ++ rangeLine p (rangeLabelName p) (goTrimSpace line)) =
      (fun (acc : List Metric) (line : String) =>
        acc ++ (if goTrimSpace line = "" then []
          else rangeLine p (rangeLabelName p) (goTrimSpace line))) := by
    funext acc line
    by_cases h : goTrimSpace line = "" <;> simp [h]
  rw [hstep, foldl_append_eq_flatMap, List.nil_append]
  induction scanLines input with
  | nil => simp
  | cons l t ih =>
    rw [List.flatMap_cons, List.flatMap_cons, List.map_append, ← ih]
    by_cases h : goTrimSpace l = "" <;> simp [h, rangeLine_eq]

theorem splitOnCharAux_chars (sep : Char) :
    ∀ (cs acc l : List Char), l ∈ splitOnCharAux sep cs acc → ∀ c ∈ l, c ∈ cs ∨ c ∈ acc := by
  intro cs
  induction cs with
  | nil =>
    intro acc l hl c hc
    unfold splitOnCharAux at hl
    rw [List.mem_singleton] at hl
    subst hl
    exact Or.inr (List.mem_reverse.mp hc)
  | cons c0 rest ih =>
    intro acc l hl c hc
    unfold splitOnCharAux at hl
    by_cases h0 : c0 = sep
    · rw [if_pos h0] at hl
      rcases List.mem_cons.mp hl with h | h
      · subst h
        exact Or.inr (List.mem_reverse.mp hc)
      · rcases ih [] l h c hc with h2 | h2
        · exact Or.inl (List.mem_cons_of_mem c0 h2)
        · exact absurd h2 (List.not_mem_nil c)
    · rw [if_neg h0] at hl
      rcases ih (c0 :: acc) l hl c hc with h2 | h2
      · exact Or.inl (List.mem_cons_of_mem c0 h2)
      · rcases List.mem_cons.mp h2 with h3 | h3
        · exact Or.inl (h3 ▸ List.mem_cons_self c0 rest)
        · exact Or.inr h3

theorem mem_dropFinalEmpty (ls : List (List Char)) (l : List Char) (h : l ∈ dropFinalEmpty ls) :
    l ∈ ls := by
  unfold dropFinalEmpty at h
  cases hl : ls.getLast? with
  | none => rw [hl] at h; exact h
  | some x =>
    rw [hl] at h
    by_cases hx : x = ([] : List Char)
    · subst hx
      exact List.dropLast_subset ls h
    · have : (match some x with
        | some ([] : List Char) => ls.dropLast
        | _ => ls) = ls := by
        cases x with
        | nil => exact absurd rfl hx
        | cons a t => rfl
      rw [this] at h
      exact h

theorem dropTrailingCR_chars (cs : List Char) (c : Char) (h : c ∈ dropTrailingCR cs) : c ∈ cs := by
  unfold dropTrailingCR at h
  cases hl : cs.getLast? with
  | none => rw [hl] at h; exact h
  | some x =>
    rw [hl] at h
    by_cases hx : x = '\r'
    · subst hx
      replace h : c ∈ cs.dropLast := h
      exact List.dropLast_subset cs h
    · have hred : (match some x with
        | some '\r' => cs.dropLast
        | _ => cs) = cs := by
        split
        · rename_i heq
          exact absurd (Option.some.inj heq) hx
        · rfl
      rw [hred] at h
      exact h

theorem scanLines_chars (input : String) (line : String) (hline : line ∈ scanLines input)
    (c : Char) (hc : c ∈ line.data) : c ∈ input.data := by
  unfold scanLines at hline
  rw [List.mem_map] at hline
  obtain ⟨cs, hcs, hdata⟩ := hline
  rw [List.mem_map] at hcs
  obtain ⟨cs0, hcs0, hdrop⟩ := hcs
  have hc' : c ∈ cs := by
    rw [← hdata] at hc
    exact hc
  have hc0 : c ∈ cs0 := dropTrailingCR_chars cs0 c (hdrop ▸ hc')
  rcases splitOnCharAux_chars '\n' input.data [] cs0 (mem_dropFinalEmpty _ cs0 hcs0) c hc0 with
    h | h
  · exact h
  · exact absurd h (List.not_mem_nil c)

theorem trimSpace_all_space (cs : List Char) (h : ∀ c ∈ cs, goIsSpace c = true) :
    trimSpaceList cs = [] := by
  unfold trimSpaceList
  have h1 : cs.dropWhile goIsSpace = [] := List.dropWhile_eq_nil_iff.mpr h
  rw [h1]
  rfl

/-- C4 (amended): the range-list parser never fails and produces, in
order, one record per occurrence of a covered integer — value `1`,
label key `numanode` for memory-node prefixes and `cpucore`
otherwise, label value the integer's decimal form — and a
whitespace-only (or empty) input yields zero records.  (The claim's
equality between the produced multiset and the covered-integer set
fails when tokens overlap; see the counterexample.) -/
theorem rangeList_claim (p input : String) :
    (rangeListCountParse p input =
      some ((coveredInts input).map
        (fun i => ⟨p, .finite 1, [(rangeLabelName p, goItoa i)]⟩))) ∧
    rangeLabelName p = (if goContains p "mems" then "numanode" else "cpucore") ∧
    (∀ ws : String, (∀ c ∈ ws.data, goIsSpace c = true) →
      rangeListCountParse p ws = some []) := by
  refine ⟨rangeListCountParse_eq p input, rfl, fun ws hws => ?_⟩
  rw [rangeListCountParse_eq]
  have hgen : ∀ lines : List String,
      (∀ line ∈ lines, goTrimSpace line = "") →
      (lines.flatMap (fun line =>
        let l := goTrimSpace line
        if l = "" then ([] : List Int) else (goSplitChar l ',').flatMap tokenCovered)) = [] := by
    intro lines hl
    induction lines with
    | nil => rfl
    | cons a t ih =>
      rw [List.flatMap_cons, ih (fun line hline => hl line (List.mem_cons_of_mem a hline))]
      simp [hl a (List.mem_cons_self a t)]
  have hcov : coveredInts ws = [] := by
    unfold coveredInts
    refine hgen (scanLines ws) (fun line hl => ?_)
    have htrim : trimSpaceList line.data = [] :=
      trimSpace_all_space line.data (fun c hc => hws c (scanLines_chars ws line hl c hc))
    show (⟨trimSpaceList line.data⟩ : String) = ""
    rw [htrim]
  rw [hcov]
  rfl

/-- C4, counterexample to the claim as stated: on input `1,1` the
parser produces two records with label value `1`, so the multiset of
produced label values has two elements while the set of covered
integers is the singleton `1`. -/
theorem rangeList_claim_counterexample :
    ((rangeListCountParse "cpuset_cpus" "1,1").getD []).map Metric.labels =
      [[("cpucore", "1")], [("cpucore", "1")]] ∧
    (coveredInts "1,1").dedup = [1] := by
  constructor
  · decide
  · decide

theorem rangeList_claim_witness :
    ((rangeListCountParse "cpuset_cpus" "0-3,8,10-11").getD []).map Metric.labels =
      [[("cpucore", "0")], [("cpucore", "1")], [("cpucore", "2")], [("cpucore", "3")],
        [("cpucore", "8")], [("cpucore", "10")], [("cpucore", "11")]] ∧
    rangeListCountParse "cpuset_mems" " \n " = some [] := by
  have h1 := (rangeList_claim "cpuset_cpus" "0-3,8,10-11").1
  have h2 := (rangeList_claim "cpuset_mems" " \n ").2.2 " \n " (by decide)
  constructor
  · rw [h1]
    decide
  · exact h2

/-! ## C6: the name sanitizer -/

theorem squeezeUnd_nil : squeezeUnd [] = [] := rfl

theorem squeezeUnd_single (c : Char) : squeezeUnd [c] = [c] := rfl

theorem squeezeUnd_cons2 (c d : Char) (rest : List Char) :
    squeezeUnd (c :: d :: rest) =
      if c = '_' ∧ d = '_' then squeezeUnd (d :: rest) else c :: squeezeUnd (d :: rest) := rfl

theorem noDoubleUnd_cons2 (c d : Char) (rest : List Char) :
    noDoubleUnd (c :: d :: rest) = (!(c = '_' ∧ d = '_') && noDoubleUnd (d :: rest)) := rfl

theorem allowed_not_special (c : Char) (h : allowedChar c = true) :
    c ≠ '"' ∧ c ≠ '\n' ∧ c ≠ '\\' := by
  refine ⟨?_, ?_, ?_⟩ <;> rintro rfl <;> exact absurd h (by decide)

theorem unquoteInnerF_cons (fuel : Nat) (c : Char) (t : List Char) :
    unquoteInnerF (fuel + 1) (c :: t) =
      if c = '"' ∨ c = '\n' then none
      else if c = '\\' then
        match unquoteEsc t with
        | some dt => (unquoteInnerF fuel dt.2).map (dt.1 :: ·)
        | none => none
      else (unquoteInnerF fuel t).map (c :: ·) := rfl

theorem unquoteInnerF_clean :
    ∀ (fuel : Nat) (cs : List Char), cs.length < fuel →
      (∀ c ∈ cs, allowedChar c = true) → unquoteInnerF fuel cs = some cs := by
  intro fuel
  induction fuel with
  | zero => intro cs h _; exact absurd h (Nat.not_lt_zero _)
  | succ fuel ih =>
    intro cs hlen h
    cases cs with
    | nil => rfl
    | cons c t =>
      obtain ⟨h1, h2, h3⟩ := allowed_not_special c (h c (List.mem_cons_self c t))
      have hlt : t.length < fuel := by
        rw [List.length_cons] at hlen
        omega
      rw [unquoteInnerF_cons, if_neg (fun hor => hor.elim h1 h2), if_neg h3,
        ih t hlt (fun x hx => h x (List.mem_cons_of_mem c hx))]
      rfl

theorem unquoteInner_clean (cs : List Char) (h : ∀ c ∈ cs, allowedChar c = true) :
    unquoteInner cs = some cs :=
  unquoteInnerF_clean (cs.length + 1) cs (Nat.lt_succ_self _) h

theorem replace_allowed (cs : List Char) : ∀ c ∈ replaceDisallowed cs, allowedChar c = true := by
  intro c hc
  rw [replaceDisallowed, List.mem_map] at hc
  obtain ⟨a, _, ha⟩ := hc
  subst ha
  by_cases h : allowedChar a = true
  · rw [if_pos h]
    exact h
  · rw [if_neg h]
    decide

theorem squeezeUnd_subset (cs : List Char) : ∀ c ∈ squeezeUnd cs, c ∈ cs := by
  induction cs with
  | nil => intro c hc; exact absurd hc (List.not_mem_nil c)
  | cons a t ih =>
    intro c hc
    cases t with
    | nil =>
      rw [squeezeUnd_single] at hc
      exact hc
    | cons d rest =>
      rw [squeezeUnd_cons2] at hc
      by_cases h : a = '_' ∧ d = '_'
      · rw [if_pos h] at hc
        exact List.mem_cons_of_mem a (ih c hc)
      · rw [if_neg h] at hc
        rcases List.mem_cons.mp hc with h2 | h2
        · exact h2 ▸ List.mem_cons_self a (d :: rest)
        · exact List.mem_cons_of_mem a (ih c h2)

theorem squeezeUnd_head (cs : List Char) : (squeezeUnd cs).head? = cs.head? := by
  induction cs with
  | nil => rfl
  | cons a t ih =>
    cases t with
    | nil => rfl
    | cons d rest =>
      rw [squeezeUnd_cons2]
      by_cases h : a = '_' ∧ d = '_'
      · rw [if_pos h, ih]
        simp [h.1, h.2]
      · rw [if_neg h]
        rfl

theorem squeezeUnd_noDouble (cs : List Char) : noDoubleUnd (squeezeUnd cs) = true := by
  induction cs with
  | nil => rfl
  | cons a t ih =>
    cases t with
    | nil => rfl
    | cons d rest =>
      rw [squeezeUnd_cons2]
      by_cases h : a = '_' ∧ d = '_'
      · rw [if_pos h]
        exact ih
      · rw [if_neg h]
        have hh := squeezeUnd_head (d :: rest)
        cases hs : squeezeUnd (d :: rest) with
        | nil => rfl
        | cons b t' =>
          rw [hs] at hh
          have hbd : b = d := by simpa using hh
          subst hbd
          rw [hs] at ih
          rw [noDoubleUnd_cons2, ih]
          simp [h]

theorem noDoubleUnd_iff_chain (cs : List Char) :
    noDoubleUnd cs = true ↔ cs.Chain' (fun a b => ¬(a = '_' ∧ b = '_')) := by
  induction cs with
  | nil => simp [noDoubleUnd]
  | cons a t ih =>
    cases t with
    | nil => simp [noDoubleUnd]
    | cons d rest =>
      rw [noDoubleUnd_cons2, List.chain'_cons, ← ih]
      simp only [Bool.and_eq_true, Bool.not_eq_true', decide_eq_false_iff_not]

theorem trimUnd_isInfix (cs : List Char) : trimUnd cs <:+: cs := by
  unfold trimUnd
  have h1 : cs.dropWhile (· = '_') <:+ cs := List.dropWhile_suffix _
  have h2 : (cs.dropWhile (· = '_')).reverse.dropWhile (· = '_') <:+
      (cs.dropWhile (· = '_')).reverse := List.dropWhile_suffix _
  have h3 : ((cs.dropWhile (· = '_')).reverse.dropWhile (· = '_')).reverse <+:
      cs.dropWhile (· = '_') := by
    have := List.reverse_prefix.mpr h2
    rwa [List.reverse_reverse] at this
  exact (h3.isInfix).trans h1.isInfix

theorem dropWhile_head_not (p : Char → Bool) :
    ∀ (l : List Char) (c : Char), (l.dropWhile p).head? = some c → p c = false := by
  intro l
  induction l with
  | nil => intro c h; exact absurd h (by simp)
  | cons a t ih =>
    intro c h
    rw [List.dropWhile_cons] at h
    by_cases hp : p a = true
    · rw [if_pos hp] at h
      exact ih c h
    · rw [if_neg hp] at h
      simp only [List.head?_cons, Option.some_inj] at h
      subst h
      exact Bool.not_eq_true _ ▸ hp

theorem trimUnd_head (cs : List Char) (c : Char) (h : (trimUnd cs).head? = some c) :
    c ≠ '_' := by
  unfold trimUnd at h
  set s1 := cs.dropWhile (· = '_') with hs1
  have hpre : (s1.reverse.dropWhile (· = '_')).reverse <+: s1 := by
    have := List.reverse_prefix.mpr (List.dropWhile_suffix (l := s1.reverse) (· = '_'))
    rwa [List.reverse_reverse] at this
  obtain ⟨t, ht⟩ := hpre
  have hhead : s1.head? = some c := by
    rw [← ht, List.head?_append, h]
    rfl
  have := dropWhile_head_not (· = '_') cs c hhead
  simpa using this

theorem trimUnd_last (cs : List Char) (c : Char) (h : (trimUnd cs).getLast? = some c) :
    c ≠ '_' := by
  unfold trimUnd at h
  rw [List.getLast?_reverse] at h
  have := dropWhile_head_not (· = '_') (cs.dropWhile (· = '_')).reverse c h
  simpa using this

theorem replace_id (cs : List Char) (h : ∀ c ∈ cs, allowedChar c = true) :
    replaceDisallowed cs = cs := by
  induction cs with
  | nil => rfl
  | cons a t ih =>
    unfold replaceDisallowed
    rw [List.map_cons]
    rw [if_pos (h a (List.mem_cons_self a t))]
    have := ih (fun c hc => h c (List.mem_cons_of_mem a hc))
    unfold replaceDisallowed at this
    rw [this]

theorem squeeze_id (cs : List Char) (h : noDoubleUnd cs = true) : squeezeUnd cs = cs := by
  induction cs with
  | nil => rfl
  | cons a t ih =>
    cases t with
    | nil => rfl
    | cons d rest =>
      rw [noDoubleUnd_cons2, Bool.and_eq_true] at h
      have hneg : ¬(a = '_' ∧ d = '_') := by
        have hb := h.1
        simp only [Bool.not_eq_true', decide_eq_false_iff_not] at hb
        exact hb
      rw [squeezeUnd_cons2, if_neg hneg, ih h.2]

theorem dropWhile_id_of_head (p : Char → Bool) (l : List Char)
    (h : ∀ c, l.head? = some c → p c = false) : l.dropWhile p = l := by
  cases l with
  | nil => rfl
  | cons a t =>
    rw [List.dropWhile_cons, if_neg]
    rw [h a rfl]
    simp

theorem trim_id (cs : List Char) (h1 : ∀ c, cs.head? = some c → c ≠ '_')
    (h2 : ∀ c, cs.getLast? = some c → c ≠ '_') : trimUnd cs = cs := by
  unfold trimUnd
  rw [dropWhile_id_of_head (· = '_') cs (fun c hc => by simpa using h1 c hc)]
  have hrev : ∀ c, cs.reverse.head? = some c → ((c = '_') : Bool) = false := by
    intro c hc
    have hlast : cs.getLast? = some c := by rwa [List.head?_reverse] at hc
    simpa using h2 c hlast
  rw [dropWhile_id_of_head (· = '_') cs.reverse hrev, List.reverse_reverse]

theorem sanitize_allowed (x : String) :
    ∀ c ∈ (sanitizeP8sName x).data, allowedChar c = true := by
  intro c hc
  have h2 : c ∈ squeezeUnd (replaceDisallowed (unquoteStep x).data) :=
    (trimUnd_isInfix _).subset hc
  exact replace_allowed _ c (squeezeUnd_subset _ c h2)

theorem sanitize_noDouble (x : String) : noDoubleUnd (sanitizeP8sName x).data = true := by
  have hsq := squeezeUnd_noDouble (replaceDisallowed (unquoteStep x).data)
  rw [noDoubleUnd_iff_chain] at hsq
  show noDoubleUnd (trimUnd (squeezeUnd (replaceDisallowed (unquoteStep x).data))) = true
  rw [noDoubleUnd_iff_chain]
  exact hsq.infix (trimUnd_isInfix _)

theorem sanitize_head (x : String) : (sanitizeP8sName x).data.head? ≠ some '_' :=
  fun h => trimUnd_head _ '_' h rfl

theorem sanitize_last (x : String) : (sanitizeP8sName x).data.getLast? ≠ some '_' :=
  fun h => trimUnd_last _ '_' h rfl

theorem sanitize_id (y : String)
    (hall : ∀ c ∈ y.data, allowedChar c = true)
    (hnd : noDoubleUnd y.data = true)
    (hh : y.data.head? ≠ some '_')
    (hl : y.data.getLast? ≠ some '_') : sanitizeP8sName y = y := by
  have hu : goUnquoteDq y = some y := by
    unfold goUnquoteDq
    rw [unquoteInner_clean y.data hall]
    rfl
  unfold sanitizeP8sName unquoteStep
  rw [hu]
  rw [replace_id y.data hall, squeeze_id y.data hnd,
    trim_id y.data (fun c hc he => hh (he ▸ hc)) (fun c hc he => hl (he ▸ hc))]

/-- C6: the sanitizer is idempotent and its output uses only
characters in `[A-Za-z0-9_:]`, has no two consecutive underscores,
and neither begins nor ends with an underscore. -/
theorem sanitize_claim (x : String) :
    sanitizeP8sName (sanitizeP8sName x) = sanitizeP8sName x ∧
    (∀ c ∈ (sanitizeP8sName x).data, allowedChar c = true) ∧
    noDoubleUnd (sanitizeP8sName x).data = true ∧
    (sanitizeP8sName x).data.head? ≠ some '_' ∧
    (sanitizeP8sName x).data.getLast? ≠ some '_' :=
  ⟨sanitize_id _ (sanitize_allowed x) (sanitize_noDouble x) (sanitize_head x) (sanitize_last x),
   sanitize_allowed x, sanitize_noDouble x, sanitize_head x, sanitize_last x⟩

theorem sanitize_claim_witness :
    sanitizeP8sName (sanitizeP8sName "a..b__:c\\x2dd") = sanitizeP8sName "a..b__:c\\x2dd" ∧
    allowedChar 'a' = true :=
  ⟨(sanitize_claim "a..b__:c\\x2dd").1,
   (sanitize_claim "a..b__:c\\x2dd").2.1 'a' (by decide)⟩

/-! ## C7: per-collector instrumentation of the aggregate scrape -/

theorem executeItems_filter_ne (c : CollectorRun) (n : String) (h : c.name ≠ n) :
    (executeItems c).filter (isInstrFor n) = [] := by
  unfold executeItems
  rw [List.filter_append]
  have h1 : (c.emitted.map ChanItem.sample).filter (isInstrFor n) = [] := by
    refine List.filter_eq_nil_iff.mpr (fun a ha => ?_)
    rw [List.mem_map] at ha
    obtain ⟨s, -, rfl⟩ := ha
    simp [isInstrFor]
  rw [h1]
  simp [isInstrFor, h]

theorem executeItems_filter_self (c : CollectorRun) :
    (executeItems c).filter (isInstrFor c.name) =
      [.instr .scrapeDuration c.duration c.name,
       .instr .scrapeSuccess (successVal c.err) c.name] := by
  unfold executeItems
  rw [List.filter_append]
  have h1 : (c.emitted.map ChanItem.sample).filter (isInstrFor c.name) = [] := by
    refine List.filter_eq_nil_iff.mpr (fun a ha => ?_)
    rw [List.mem_map] at ha
    obtain ⟨s, -, rfl⟩ := ha
    simp [isInstrFor]
  rw [h1]
  simp [isInstrFor]

theorem collect_filter_notmem (n : String) :
    ∀ cols : List CollectorRun, n ∉ cols.map CollectorRun.name →
      (collectRun cols).filter (isInstrFor n) = [] := by
  intro cols
  induction cols with
  | nil => intro _; rfl
  | cons x t ih =>
    intro h
    rw [List.map_cons, List.mem_cons] at h
    push_neg at h
    show ((x :: t).flatMap executeItems).filter (isInstrFor n) = []
    rw [List.flatMap_cons, List.filter_append,
      executeItems_filter_ne x n (fun he => h.1 he.symm), List.nil_append]
    exact ih h.2

theorem collect_filter_self :
    ∀ cols : List CollectorRun, (cols.map CollectorRun.name).Nodup →
      ∀ c ∈ cols, (collectRun cols).filter (isInstrFor c.name) =
        [ChanItem.instr .scrapeDuration c.duration c.name,
         ChanItem.instr .scrapeSuccess (successVal c.err) c.name] := by
  intro cols
  induction cols with
  | nil => intro _ c hc; exact absurd hc (List.not_mem_nil c)
  | cons x t ih =>
    intro hnodup c hc
    rw [List.map_cons, List.nodup_cons] at hnodup
    show ((x :: t).flatMap executeItems).filter (isInstrFor c.name) = _
    rw [List.flatMap_cons, List.filter_append]
    rcases List.mem_cons.mp hc with rfl | hmem
    · rw [executeItems_filter_self]
      have hnot : (collectRun t).filter (isInstrFor c.name) = [] :=
        collect_filter_notmem c.name t hnodup.1
      rw [show (t.flatMap executeItems) = collectRun t from rfl, hnot, List.append_nil]
    · have hx : x.name ≠ c.name := by
        intro he
        exact hnodup.1 (he ▸ List.mem_map_of_mem CollectorRun.name hmem)
      rw [executeItems_filter_ne x c.name hx, List.nil_append]
      exact ih hnodup.2 c hmem

/-- C7: in an aggregate scrape, every collector — whatever its
outcome — contributes exactly two instrumentation metrics labeled
with its name: its duration gauge and a success indicator that is `1`
on success and `0` on any failure; a no-data outcome is logged at
debug severity (a genuine error at error severity) but is
indistinguishable in the success metric; and each collector's pair is
independent of every other collector's outcome. -/
theorem aggregate_claim (cols : List CollectorRun)
    (hnodup : (cols.map CollectorRun.name).Nodup) :
    ∀ c ∈ cols,
      ((collectRun cols).filter (isInstrFor c.name) =
        [ChanItem.instr .scrapeDuration c.duration c.name,
         ChanItem.instr .scrapeSuccess (successVal c.err) c.name]) ∧
      successVal c.err = (if c.err = none then GoFloat.finite 1 else GoFloat.finite 0) ∧
      (c.err = some .noData → executeLogLevel c = .debug ∧ successVal c.err = .finite 0) ∧
      (∀ e, c.err = some e → e ≠ .noData → executeLogLevel c = .error) := by
  intro c hc
  refine ⟨collect_filter_self cols hnodup c hc, ?_, ?_, ?_⟩
  · cases h : c.err <;> simp [successVal, h]
  · intro h
    exact ⟨by simp [executeLogLevel, h, isNoDataError], by simp [successVal, h]⟩
  · intro e he hne
    simp [executeLogLevel, he, isNoDataError, hne]

theorem aggregate_claim_witness :
    ((collectRun
        [⟨"memory.current", [], none, .finite 2⟩,
         ⟨"memory.stat", [], some .noData, .finite 3⟩,
         ⟨"cpu.stat", [], some (.openFailed "d"), .finite 4⟩]).filter
      (isInstrFor "memory.stat") =
      [ChanItem.instr .scrapeDuration (.finite 3) "memory.stat",
       ChanItem.instr .scrapeSuccess (.finite 0) "memory.stat"]) ∧
    executeLogLevel ⟨"memory.stat", [], some .noData, .finite 3⟩ = .debug ∧
    executeLogLevel ⟨"cpu.stat", [], some (.openFailed "d"), .finite 4⟩ = .error := by
  have h := aggregate_claim
    [⟨"memory.current", [], none, .finite 2⟩,
     ⟨"memory.stat", [], some .noData, .finite 3⟩,
     ⟨"cpu.stat", [], some (.openFailed "d"), .finite 4⟩] (by decide)
  obtain ⟨hfil, -, hnod, -⟩ := h ⟨"memory.stat", [], some .noData, .finite 3⟩ (by decide)
  obtain ⟨-, -, -, herr⟩ := h ⟨"cpu.stat", [], some (.openFailed "d"), .finite 4⟩ (by decide)
  exact ⟨by simpa [successVal] using hfil, (hnod rfl).1,
    herr (.openFailed "d") rfl (by decide)⟩

/-! ## Association-list lemmas -/

theorem alookup_none_not_mem {κ α : Type} [DecidableEq κ] :
    ∀ (l : List (κ × α)) (k : κ), alookup l k = none → ∀ v, (k, v) ∉ l := by
  intro l
  induction l with
  | nil => intro k _ v hv; exact absurd hv (List.not_mem_nil _)
  | cons e t ih =>
    intro k h v hv
    obtain ⟨k', v'⟩ := e
    unfold alookup at h
    by_cases hk : k' = k
    · rw [if_pos hk] at h
      exact Option.noConfusion h
    · rw [if_neg hk] at h
      rcases List.mem_cons.mp hv with he | he
      · exact hk (congrArg Prod.fst he).symm
      · exact ih k h v he

theorem alookup_mem {κ α : Type} [DecidableEq κ] :
    ∀ (l : List (κ × α)) (k : κ) (v : α), alookup l k = some v → (k, v) ∈ l := by
  intro l
  induction l with
  | nil => intro k v h; exact Option.noConfusion h
  | cons e t ih =>
    intro k v h
    obtain ⟨k', v'⟩ := e
    unfold alookup at h
    by_cases hk : k' = k
    · rw [if_pos hk] at h
      subst hk
      rw [Option.some_inj] at h
      subst h
      exact List.mem_cons_self _ _
    · rw [if_neg hk] at h
      exact List.mem_cons_of_mem _ (ih k v h)

theorem mem_aset_self {κ α : Type} [DecidableEq κ] :
    ∀ (l : List (κ × α)) (k : κ) (v : α), (k, v) ∈ aset l k v := by
  intro l
  induction l with
  | nil => intro k v; exact List.mem_cons_self _ _
  | cons e t ih =>
    intro k v
    obtain ⟨k', v'⟩ := e
    unfold aset
    by_cases hk : k' = k
    · rw [if_pos hk]
      exact List.mem_cons_self _ _
    · rw [if_neg hk]
      exact List.mem_cons_of_mem _ (ih k v)

theorem aset_mem_of_mem {κ α : Type} [DecidableEq κ] :
    ∀ (l : List (κ × α)) (k : κ) (v : α) (n : κ) (i : α),
      (n, i) ∈ l → n ≠ k → (n, i) ∈ aset l k v := by
  intro l
  induction l with
  | nil => intro k v n i h _; exact absurd h (List.not_mem_nil _)
  | cons e t ih =>
    intro k v n i h hne
    obtain ⟨k', v'⟩ := e
    unfold aset
    by_cases hk : k' = k
    · rw [if_pos hk]
      rcases List.mem_cons.mp h with he | he
      · rw [Prod.mk.injEq] at he
        exact absurd (hk ▸ he.1) hne
      · exact List.mem_cons_of_mem _ he
    · rw [if_neg hk]
      rcases List.mem_cons.mp h with he | he
      · exact he ▸ List.mem_cons_self _ _
      · exact List.mem_cons_of_mem _ (ih k v n i he hne)

theorem mem_aset_elim {κ α : Type} [DecidableEq κ] :
    ∀ (l : List (κ × α)) (k : κ) (v : α) (n : κ) (i : α),
      (n, i) ∈ aset l k v → (n, i) ∈ l ∨ (n = k ∧ i = v) := by
  intro l
  induction l with
  | nil =>
    intro k v n i h
    rcases List.mem_cons.mp h with he | he
    · rw [Prod.mk.injEq] at he
      exact Or.inr he
    · exact absurd he (List.not_mem_nil _)
  | cons e t ih =>
    intro k v n i h
    obtain ⟨k', v'⟩ := e
    unfold aset at h
    by_cases hk : k' = k
    · rw [if_pos hk] at h
      rcases List.mem_cons.mp h with he | he
      · rw [Prod.mk.injEq] at he
        exact Or.inr he
      · exact Or.inl (List.mem_cons_of_mem _ he)
    · rw [if_neg hk] at h
      rcases List.mem_cons.mp h with he | he
      · exact Or.inl (he ▸ List.mem_cons_self _ _)
      · rcases ih k v n i he with h2 | h2
        · exact Or.inl (List.mem_cons_of_mem _ h2)
        · exact Or.inr h2

theorem alookup_aset_ne {κ α : Type} [DecidableEq κ] :
    ∀ (l : List (κ × α)) (k : κ) (v : α) (n : κ), n ≠ k →
      alookup (aset l k v) n = alookup l n := by
  intro l
  induction l with
  | nil =>
    intro k v n hne
    unfold aset alookup
    rw [if_neg (fun h => hne h.symm)]
    rfl
  | cons e t ih =>
    intro k v n hne
    obtain ⟨k', v'⟩ := e
    unfold aset
    by_cases hk : k' = k
    · rw [if_pos hk]
      unfold alookup
      rw [if_neg (fun h : k = n => hne h.symm), if_neg (fun h : k' = n => hne ((hk ▸ h : k = n)).symm)]
    · rw [if_neg hk]
      unfold alookup
      by_cases hk2 : k' = n
      · rw [if_pos hk2, if_pos hk2]
      · rw [if_neg hk2, if_neg hk2]
        exact ih k v n hne

theorem aset_keys_nodup {κ α : Type} [DecidableEq κ] :
    ∀ (l : List (κ × α)) (k : κ) (v : α),
      (l.map Prod.fst).Nodup → ((aset l k v).map Prod.fst).Nodup := by
  intro l
  induction l with
  | nil => intro k v _; simp [aset]
  | cons e t ih =>
    intro k v h
    obtain ⟨k', v'⟩ := e
    rw [List.map_cons, List.nodup_cons] at h
    unfold aset
    by_cases hk : k' = k
    · rw [if_pos hk]
      rw [List.map_cons, List.nodup_cons]
      exact ⟨hk ▸ h.1, h.2⟩
    · rw [if_neg hk]
      rw [List.map_cons, List.nodup_cons]
      refine ⟨fun hmem => ?_, ih k v h.2⟩
      rw [List.mem_map] at hmem
      obtain ⟨⟨n, i⟩, hmem2, heq⟩ := hmem
      rcases mem_aset_elim t k v n i hmem2 with h2 | h2
      · refine h.1 ?_
        rw [← heq]
        exact List.mem_map_of_mem Prod.fst h2
      · have heq2 : n = k' := heq
        refine hk ?_
        rw [← heq2]
        exact h2.1


theorem keys_nodup_functional {κ α : Type} [DecidableEq κ] :
    ∀ (l : List (κ × α)), (l.map Prod.fst).Nodup →
      ∀ (n : κ) (i j : α), (n, i) ∈ l → (n, j) ∈ l → i = j := by
  intro l
  induction l with
  | nil => intro _ n i j hi _; exact absurd hi (List.not_mem_nil _)
  | cons e t ih =>
    intro h n i j hi hj
    obtain ⟨k', v'⟩ := e
    rw [List.map_cons, List.nodup_cons] at h
    rcases List.mem_cons.mp hi with hei | hei
    · rw [Prod.mk.injEq] at hei
      rcases List.mem_cons.mp hj with hej | hej
      · rw [Prod.mk.injEq] at hej
        rw [hei.2, hej.2]
      · exfalso
        have hm : n ∈ List.map Prod.fst t := List.mem_map_of_mem Prod.fst hej
        rw [hei.1] at hm
        exact h.1 hm
    · rcases List.mem_cons.mp hj with hej | hej
      · rw [Prod.mk.injEq] at hej
        exfalso
        have hm : n ∈ List.map Prod.fst t := List.mem_map_of_mem Prod.fst hei
        rw [hej.1] at hm
        exact h.1 hm
      · exact ih h.2 n i j hei hej

/-! ## C8: filtered resolution errors -/

theorem validateFilters_cons (states : List (String × Bool)) (fl : String) (rest : List String) :
    validateFilters states (fl :: rest) =
      match alookup states fl with
      | none => some (.missingCollector fl)
      | some enabled =>
        if !enabled then some (.disabledCollector fl) else validateFilters states rest := rfl

theorem resolve_validate_err (st : Registry) (filters : List String) (e : RegErr)
    (h : validateFilters st.collectorState filters = some e) :
    resolve st filters = (some e, [], st) := by
  unfold resolve
  rw [h]

theorem validateFilters_offending (states : List (String × Bool)) :
    ∀ filters : List String,
      (∃ n ∈ filters, alookup states n = none ∨ alookup states n = some false) →
      ∃ e, validateFilters states filters = some e ∧
        ∃ n ∈ filters,
          (e = RegErr.missingCollector n ∧ alookup states n = none) ∨
          (e = RegErr.disabledCollector n ∧ alookup states n = some false) := by
  intro filters
  induction filters with
  | nil => rintro ⟨n, hn, -⟩; exact absurd hn (List.not_mem_nil n)
  | cons fl rest ih =>
    intro hex
    cases hl : alookup states fl with
    | none =>
      refine ⟨.missingCollector fl, ?_, fl, List.mem_cons_self fl rest, Or.inl ⟨rfl, hl⟩⟩
      rw [validateFilters_cons, hl]
    | some enabled =>
      cases enabled with
      | false =>
        refine ⟨.disabledCollector fl, ?_, fl, List.mem_cons_self fl rest, Or.inr ⟨rfl, hl⟩⟩
        rw [validateFilters_cons, hl]
        rfl
      | true =>
        have hex' : ∃ n ∈ rest, alookup states n = none ∨ alookup states n = some false := by
          obtain ⟨n, hn, hor⟩ := hex
          rcases List.mem_cons.mp hn with rfl | hn2
          · rcases hor with h2 | h2
            · rw [hl] at h2
              exact Option.noConfusion h2
            · rw [hl] at h2
              exact absurd (Option.some.inj h2) (by decide)
          · exact ⟨n, hn2, hor⟩
        obtain ⟨e, he, n, hn, hkind⟩ := ih hex'
        refine ⟨e, ?_, n, List.mem_cons_of_mem fl hn, hkind⟩
        rw [validateFilters_cons, hl]
        exact he

/-- C8 (amended): whenever some name in a non-empty filter is
unregistered or disabled, resolution fails before any factory runs,
returning the original registry (singleton cache and factory-call log
unchanged) and an error naming an offending filter with the matching
kind — unknown-collector for an unregistered name, disabled-collector
for a registered-but-disabled one.  (Which offending filter is
reported is decided by filter order, not by kind; see the
counterexample.) -/
theorem resolve_filter_claim (st : Registry) (filters : List String)
    (h : ∃ n ∈ filters,
      alookup st.collectorState n = none ∨ alookup st.collectorState n = some false) :
    ∃ e, resolve st filters = (some e, [], st) ∧
      ∃ n ∈ filters,
        (e = RegErr.missingCollector n ∧ alookup st.collectorState n = none) ∨
        (e = RegErr.disabledCollector n ∧ alookup st.collectorState n = some false) := by
  obtain ⟨e, he, hwit⟩ := validateFilters_offending st.collectorState filters h
  exact ⟨e, resolve_validate_err st filters e he, hwit⟩

/-- C8, counterexample to the claim as stated: with collector `cg`
registered but disabled and `u` unregistered, resolving the filter
`[cg, u]` fails with the disabled-collector error, not with an
unknown-collector error, although a filter name is unregistered. -/
theorem resolve_filter_counterexample :
    ("u" ∈ ["cg", "u"]) ∧
    alookup (freshRegistry [("cg", false)]).collectorState "u" = none ∧
    (resolve (freshRegistry [("cg", false)]) ["cg", "u"]).1 =
      some (RegErr.disabledCollector "cg") ∧
    isMissingErr (resolve (freshRegistry [("cg", false)]) ["cg", "u"]).1 = false := by
  refine ⟨by decide, by decide, by decide, by decide⟩

theorem resolve_filter_claim_witness :
    ∃ e, resolve (freshRegistry [("cg", false)]) ["cg", "u"] =
        (some e, [], freshRegistry [("cg", false)]) ∧
      ∃ n ∈ ["cg", "u"],
        (e = RegErr.missingCollector n ∧
          alookup (freshRegistry [("cg", false)]).collectorState n = none) ∨
        (e = RegErr.disabledCollector n ∧
          alookup (freshRegistry [("cg", false)]).collectorState n = some false) :=
  resolve_filter_claim (freshRegistry [("cg", false)]) ["cg", "u"]
    ⟨"u", by decide, Or.inl (by decide)⟩

/-! ## C9: singleton memoization across resolution calls -/

theorem alookup_aset_self {κ α : Type} [DecidableEq κ] :
    ∀ (l : List (κ × α)) (k : κ) (v : α), alookup (aset l k v) k = some v := by
  intro l
  induction l with
  | nil =>
    intro k v
    unfold aset alookup
    rw [if_pos rfl]
  | cons e t ih =>
    intro k v
    obtain ⟨k', v'⟩ := e
    unfold aset
    by_cases hk : k' = k
    · rw [if_pos hk]
      unfold alookup
      rw [if_pos rfl]
    · rw [if_neg hk]
      unfold alookup
      rw [if_neg hk]
      exact ih k v

theorem resolveLoop_cons (filters : List String) (key : String) (enabled : Bool)
    (rest : List (String × Bool)) (st : Registry) (acc : List (String × Nat)) :
    resolveLoop filters ((key, enabled) :: rest) st acc =
      if !enabled ∨ (filters ≠ [] ∧ ¬ key ∈ filters) then resolveLoop filters rest st acc
      else
        match alookup st.initiated key with
        | some inst => resolveLoop filters rest st (aset acc key inst)
        | none =>
          resolveLoop filters rest
            { st with
              initiated := aset st.initiated key st.nextId
              nextId := st.nextId + 1
              factoryCalls := st.factoryCalls ++ [key] }
            (aset acc key st.nextId) := rfl

theorem resolveLoop_spec (filters : List String) :
    ∀ (cs : List (String × Bool)) (st : Registry) (acc : List (String × Nat)),
      RegInv st →
      (∀ e ∈ acc, e ∈ st.initiated) →
      RegInv (resolveLoop filters cs st acc).2 ∧
      (∀ e ∈ st.initiated, e ∈ (resolveLoop filters cs st acc).2.initiated) ∧
      (∀ e ∈ (resolveLoop filters cs st acc).1, e ∈ (resolveLoop filters cs st acc).2.initiated) := by
  intro cs
  induction cs with
  | nil =>
    intro st acc hinv hacc
    exact ⟨hinv, fun e he => he, fun e he => hacc e he⟩
  | cons ke rest ih =>
    intro st acc hinv hacc
    obtain ⟨key, enabled⟩ := ke
    rw [resolveLoop_cons]
    by_cases hskip : !enabled ∨ (filters ≠ [] ∧ ¬ key ∈ filters)
    · rw [if_pos hskip]
      exact ih st acc hinv hacc
    · rw [if_neg hskip]
      cases hl : alookup st.initiated key with
      | some inst =>
        refine ih st (aset acc key inst) hinv (fun e he => ?_)
        rcases mem_aset_elim acc key inst e.1 e.2 he with h2 | h2
        · exact hacc e h2
        · have : e = (key, inst) := Prod.ext h2.1 h2.2
          rw [this]
          exact alookup_mem st.initiated key inst hl
      | none =>
        set st' : Registry :=
          { st with
            initiated := aset st.initiated key st.nextId
            nextId := st.nextId + 1
            factoryCalls := st.factoryCalls ++ [key] } with hst'
        have hmono : ∀ e ∈ st.initiated, e ∈ st'.initiated := by
          intro e he
          refine aset_mem_of_mem st.initiated key st.nextId e.1 e.2 he (fun hk => ?_)
          exact alookup_none_not_mem st.initiated key hl e.2 (hk ▸ he)
        have hinv' : RegInv st' := by
          constructor
          · exact aset_keys_nodup st.initiated key st.nextId hinv.1
          · intro n
            by_cases hn : n = key
            · subst hn
              rw [show st'.factoryCalls = st.factoryCalls ++ [n] from rfl,
                List.count_append, hinv.2 n, hl]
              rw [show st'.initiated = aset st.initiated n st.nextId from rfl,
                alookup_aset_self st.initiated n st.nextId]
              simp [List.count_cons]
            · rw [show st'.factoryCalls = st.factoryCalls ++ [key] from rfl,
                List.count_append, hinv.2 n]
              rw [show st'.initiated = aset st.initiated key st.nextId from rfl,
                alookup_aset_ne st.initiated key st.nextId n hn]
              simp [List.count_cons, hn]
        have hacc' : ∀ e ∈ aset acc key st.nextId, e ∈ st'.initiated := by
          intro e he
          rcases mem_aset_elim acc key st.nextId e.1 e.2 he with h2 | h2
          · exact hmono e (hacc e h2)
          · have : e = (key, st.nextId) := Prod.ext h2.1 h2.2
            rw [this]
            exact mem_aset_self st.initiated key st.nextId
        obtain ⟨hi1, hi2, hi3⟩ := ih st' (aset acc key st.nextId) hinv' hacc'
        exact ⟨hi1, fun e he => hi2 e (hmono e he), hi3⟩

theorem resolve_spec (st : Registry) (filters : List String) (hinv : RegInv st) :
    RegInv (resolve st filters).2.2 ∧
    (∀ e ∈ st.initiated, e ∈ (resolve st filters).2.2.initiated) ∧
    (∀ e ∈ (resolve st filters).2.1, e ∈ (resolve st filters).2.2.initiated) := by
  unfold resolve
  cases hv : validateFilters st.collectorState filters with
  | some e =>
    exact ⟨hinv, fun e' he => he, fun e' he => absurd he (List.not_mem_nil _)⟩
  | none =>
    obtain ⟨h1, h2, h3⟩ := resolveLoop_spec filters st.collectorState st [] hinv
      (fun e he => absurd he (List.not_mem_nil _))
    exact ⟨h1, h2, h3⟩

theorem resolveSeq_cons (st : Registry) (fl : List String) (rest : List (List String)) :
    resolveSeq st (fl :: rest) =
      ((resolveSeq (resolve st fl).2.2 rest).1,
       ((resolve st fl).1, (resolve st fl).2.1) :: (resolveSeq (resolve st fl).2.2 rest).2) := rfl

theorem resolveSeq_spec :
    ∀ (calls : List (List String)) (st : Registry), RegInv st →
      RegInv (resolveSeq st calls).1 ∧
      (∀ e ∈ st.initiated, e ∈ (resolveSeq st calls).1.initiated) ∧
      (∀ r ∈ (resolveSeq st calls).2, ∀ e ∈ r.2, e ∈ (resolveSeq st calls).1.initiated) := by
  intro calls
  induction calls with
  | nil =>
    intro st hinv
    exact ⟨hinv, fun e he => he, fun r hr => absurd hr (List.not_mem_nil _)⟩
  | cons fl rest ih =>
    intro st hinv
    obtain ⟨h1, h2, h3⟩ := resolve_spec st fl hinv
    obtain ⟨s1, s2, s3⟩ := ih (resolve st fl).2.2 h1
    rw [resolveSeq_cons]
    refine ⟨s1, fun e he => s2 e (h2 e he), fun r hr e he => ?_⟩
    rcases List.mem_cons.mp hr with rfl | hr2
    · exact s2 e (h3 e he)
    · exact s3 r hr2 e he

/-- C9: across any sequence of resolution calls starting from an
empty singleton cache (concurrent calls are serialized by the shared
mutex, so sequences cover them), the factory for any given name runs
at most once, and every resolution whose result contains that name
returns the same instance. -/
theorem registry_singleton_claim (states : List (String × Bool))
    (calls : List (List String)) (name : String) :
    ((resolveSeq (freshRegistry states) calls).1.factoryCalls.count name ≤ 1) ∧
    (∀ r1 ∈ (resolveSeq (freshRegistry states) calls).2,
      ∀ r2 ∈ (resolveSeq (freshRegistry states) calls).2,
      ∀ i j, (name, i) ∈ r1.2 → (name, j) ∈ r2.2 → i = j) := by
  have hinv0 : RegInv (freshRegistry states) := by
    refine ⟨List.nodup_nil, fun n => rfl⟩
  obtain ⟨hinv, -, hres⟩ := resolveSeq_spec calls (freshRegistry states) hinv0
  constructor
  · rw [hinv.2 name]
    split
    · exact Nat.le_refl 1
    · exact Nat.zero_le 1
  · intro r1 h1 r2 h2 i j hi hj
    exact keys_nodup_functional _ hinv.1 name i j (hres r1 h1 (name, i) hi) (hres r2 h2 (name, j) hj)

theorem registry_singleton_claim_witness :
    ((resolveSeq (freshRegistry [("memory.current", true), ("cpu.stat", true)])
        [[], ["memory.current"]]).1.factoryCalls.count "memory.current" ≤ 1) ∧
    (0 : Nat) = 0 := by
  have h := registry_singleton_claim [("memory.current", true), ("cpu.stat", true)]
    [[], ["memory.current"]] "memory.current"
  refine ⟨h.1, ?_⟩
  exact h.2 (none, [("memory.current", 0), ("cpu.stat", 1)]) (by decide)
    (none, [("memory.current", 0)]) (by decide) 0 0 (by decide) (by decide)

/-! ## C1 and C10: the File Collector's Update -/

theorem counterVecAdd_mem_elim (vec : Vec) (combo : Labels) (v : GoFloat) :
    ∀ (c : Labels) (w : GoFloat), (c, w) ∈ counterVecAdd vec combo v →
      (∃ w', (c, w') ∈ vec) ∨ c = combo := by
  intro c w h
  unfold counterVecAdd at h
  cases hl : alookup vec combo with
  | some old =>
    rw [hl] at h
    rcases mem_aset_elim vec combo _ c w h with h2 | h2
    exacts [Or.inl ⟨w, h2⟩, Or.inr h2.1]
  | none =>
    rw [hl] at h
    rcases mem_aset_elim vec combo _ c w h with h2 | h2
    exacts [Or.inl ⟨w, h2⟩, Or.inr h2.1]

theorem counterVecAdd_mem_self (vec : Vec) (combo : Labels) (v : GoFloat) :
    ∃ w, (combo, w) ∈ counterVecAdd vec combo v := by
  unfold counterVecAdd
  cases hl : alookup vec combo with
  | some old => exact ⟨_, mem_aset_self vec combo _⟩
  | none => exact ⟨_, mem_aset_self vec combo _⟩

theorem stateHas_empty (n : String) (c : Labels) (k : VecKind) :
    ¬ stateHas emptyFcState n c k := by
  rintro ⟨vec, v, hv, -⟩
  cases k <;> exact absurd hv (List.not_mem_nil _)

theorem processRecord_spec (isCtr : String → Labels → Bool) (cg : String) (st : FcState)
    (r : Metric) (P : String → Labels → VecKind → Prop)
    (hst : ∀ n c k, stateHas st n c k → P n c k)
    (hnew : P (sanitizeP8sName r.name) (("cgroup", cg) :: r.labels)
      (kindOf (isCtr (sanitizeP8sName r.name) r.labels))) :
    (∀ n c k, stateHas (processRecord isCtr cg st r).1 n c k → P n c k) ∧
    (∀ s ∈ (processRecord isCtr cg st r).2, P s.name s.labels s.kind) ∧
    (∃ s ∈ (processRecord isCtr cg st r).2,
      s.name = sanitizeP8sName r.name ∧ s.labels = ("cgroup", cg) :: r.labels ∧
      s.kind = kindOf (isCtr (sanitizeP8sName r.name) r.labels)) := by
  by_cases hc : isCtr (sanitizeP8sName r.name) r.labels = true
  · have hpr : processRecord isCtr cg st r =
        (({ st with counterVecs := aset st.counterVecs (sanitizeP8sName r.name) (newCounterVec st r cg) } : FcState),
          collectVec (sanitizeP8sName r.name) .counter (newCounterVec st r cg)) := by
      unfold processRecord
      rw [if_pos hc]
    have hkind : kindOf (isCtr (sanitizeP8sName r.name) r.labels) = .counter := by
      rw [hc]
      rfl
    rw [hkind] at hnew
    rw [hpr, hkind]
    have hvecmem : ∀ (c : Labels) (w : GoFloat), (c, w) ∈ newCounterVec st r cg →
        P (sanitizeP8sName r.name) c VecKind.counter := by
      intro c w hw
      unfold newCounterVec at hw
      rcases counterVecAdd_mem_elim _ _ _ c w hw with h2 | h2
      · obtain ⟨w', hw'⟩ := h2
        cases hl : alookup st.counterVecs (sanitizeP8sName r.name) with
        | some v0 =>
          rw [hl] at hw'
          replace hw' : (c, w') ∈ v0 := hw'
          exact hst _ c .counter ⟨v0, w', alookup_mem _ _ _ hl, hw'⟩
        | none =>
          rw [hl] at hw'
          replace hw' : (c, w') ∈ ([] : Vec) := hw'
          exact absurd hw' (List.not_mem_nil _)
      · rw [h2]
        exact hnew
    refine ⟨?_, ?_, ?_⟩
    · intro n c k hsh
      obtain ⟨vec, v, hv, hcv⟩ := hsh
      cases k with
      | gauge => exact hst n c .gauge ⟨vec, v, hv, hcv⟩
      | counter =>
        replace hv : (n, vec) ∈
            aset st.counterVecs (sanitizeP8sName r.name) (newCounterVec st r cg) := hv
        rcases mem_aset_elim _ _ _ n vec hv with h2 | h2
        · exact hst n c .counter ⟨vec, v, h2, hcv⟩
        · rw [h2.1]
          exact hvecmem c v (h2.2 ▸ hcv)
    · intro s hs
      unfold collectVec at hs
      rw [List.mem_map] at hs
      obtain ⟨⟨c, v⟩, hcv, rfl⟩ := hs
      exact hvecmem c v hcv
    · obtain ⟨w, hw⟩ : ∃ w, (("cgroup", cg) :: r.labels, w) ∈ newCounterVec st r cg := by
        unfold newCounterVec
        exact counterVecAdd_mem_self _ _ _
      refine ⟨⟨sanitizeP8sName r.name, ("cgroup", cg) :: r.labels, w, .counter⟩, ?_, rfl, rfl, rfl⟩
      unfold collectVec
      rw [List.mem_map]
      exact ⟨(("cgroup", cg) :: r.labels, w), hw, rfl⟩
  · have hcf : isCtr (sanitizeP8sName r.name) r.labels = false := by
      revert hc
      cases isCtr (sanitizeP8sName r.name) r.labels <;> simp
    have hpr : processRecord isCtr cg st r =
        (({ st with gaugeVecs := aset st.gaugeVecs (sanitizeP8sName r.name) (newGaugeVec st r cg) } : FcState),
          collectVec (sanitizeP8sName r.name) .gauge (newGaugeVec st r cg)) := by
      unfold processRecord
      rw [if_neg hc]
    have hkind : kindOf (isCtr (sanitizeP8sName r.name) r.labels) = .gauge := by
      rw [hcf]
      rfl
    rw [hpr]
    rw [hkind] at hnew
    have hvecmem : ∀ (c : Labels) (w : GoFloat), (c, w) ∈ newGaugeVec st r cg →
        P (sanitizeP8sName r.name) c VecKind.gauge := by
      intro c w hw
      unfold newGaugeVec at hw
      rcases mem_aset_elim _ _ _ c w hw with h2 | h2
      · cases hl : alookup st.gaugeVecs (sanitizeP8sName r.name) with
        | some v0 =>
          rw [hl] at h2
          replace h2 : (c, w) ∈ v0 := h2
          exact hst _ c .gauge ⟨v0, w, alookup_mem _ _ _ hl, h2⟩
        | none =>
          rw [hl] at h2
          replace h2 : (c, w) ∈ ([] : Vec) := h2
          exact absurd h2 (List.not_mem_nil _)
      · rw [h2.1]
        exact hnew
    refine ⟨?_, ?_, ?_⟩
    · intro n c k hsh
      obtain ⟨vec, v, hv, hcv⟩ := hsh
      cases k with
      | counter => exact hst n c .counter ⟨vec, v, hv, hcv⟩
      | gauge =>
        replace hv : (n, vec) ∈
            aset st.gaugeVecs (sanitizeP8sName r.name) (newGaugeVec st r cg) := hv
        rcases mem_aset_elim _ _ _ n vec hv with h2 | h2
        · exact hst n c .gauge ⟨vec, v, h2, hcv⟩
        · rw [h2.1]
          exact hvecmem c v (h2.2 ▸ hcv)
    · intro s hs
      unfold collectVec at hs
      rw [List.mem_map] at hs
      obtain ⟨⟨c, v⟩, hcv, rfl⟩ := hs
      exact hvecmem c v hcv
    · refine ⟨⟨sanitizeP8sName r.name, ("cgroup", cg) :: r.labels, r.value, .gauge⟩, ?_,
        rfl, rfl, hkind.symm⟩
      unfold collectVec
      rw [List.mem_map]
      refine ⟨(("cgroup", cg) :: r.labels, r.value), ?_, rfl⟩
      unfold newGaugeVec
      exact mem_aset_self _ _ _

theorem processRecords_cons (isCtr : String → Labels → Bool) (cg : String) (st : FcState)
    (r : Metric) (rest : List Metric) :
    processRecords isCtr cg st (r :: rest) =
      ((processRecords isCtr cg (processRecord isCtr cg st r).1 rest).1,
       (processRecord isCtr cg st r).2 ++
         (processRecords isCtr cg (processRecord isCtr cg st r).1 rest).2) := rfl

theorem processRecords_spec (isCtr : String → Labels → Bool) (cg : String)
    (P : String → Labels → VecKind → Prop) :
    ∀ (recs : List Metric) (st : FcState),
      (∀ n c k, stateHas st n c k → P n c k) →
      (∀ r ∈ recs, P (sanitizeP8sName r.name) (("cgroup", cg) :: r.labels)
        (kindOf (isCtr (sanitizeP8sName r.name) r.labels))) →
      (∀ n c k, stateHas (processRecords isCtr cg st recs).1 n c k → P n c k) ∧
      (∀ s ∈ (processRecords isCtr cg st recs).2, P s.name s.labels s.kind) ∧
      (∀ r ∈ recs, ∃ s ∈ (processRecords isCtr cg st recs).2,
        s.name = sanitizeP8sName r.name ∧ s.labels = ("cgroup", cg) :: r.labels ∧
        s.kind = kindOf (isCtr (sanitizeP8sName r.name) r.labels)) := by
  intro recs
  induction recs with
  | nil =>
    intro st hst _
    exact ⟨hst, fun s hs => absurd hs (List.not_mem_nil _),
      fun r hr => absurd hr (List.not_mem_nil _)⟩
  | cons r rest ih =>
    intro st hst hall
    obtain ⟨p1, p2, p3⟩ :=
      processRecord_spec isCtr cg st r P hst (hall r (List.mem_cons_self r rest))
    obtain ⟨q1, q2, q3⟩ := ih (processRecord isCtr cg st r).1 p1
      (fun r' hr' => hall r' (List.mem_cons_of_mem r hr'))
    rw [processRecords_cons]
    refine ⟨q1, ?_, ?_⟩
    · intro s hs
      rcases List.mem_append.mp hs with h2 | h2
      exacts [p2 s h2, q2 s h2]
    · intro r' hr'
      rcases List.mem_cons.mp hr' with rfl | hr2
      · obtain ⟨s, hs, hss⟩ := p3
        exact ⟨s, List.mem_append.mpr (Or.inl hs), hss⟩
      · obtain ⟨s, hs, hss⟩ := q3 r' hr2
        exact ⟨s, List.mem_append.mpr (Or.inr hs), hss⟩

theorem updateGo_cons (parse : String → Option (List Metric)) (isCtr : String → Labels → Bool)
    (fileName : String) (fs : String → Option String) (st : FcState) (d : String)
    (rest : List String) :
    updateGo parse isCtr fileName fs st (d :: rest) =
      (match fs (goJoin d fileName) with
       | none => (st, [], some (.openFailed d))
       | some content =>
         match parse content with
         | none => (st, [], some (.parseFailed d))
         | some recs =>
           ((updateGo parse isCtr fileName fs
              (processRecords isCtr (sanitizeP8sName (goFilepathBase d)) st recs).1 rest).1,
            (processRecords isCtr (sanitizeP8sName (goFilepathBase d)) st recs).2 ++
              (updateGo parse isCtr fileName fs
                (processRecords isCtr (sanitizeP8sName (goFilepathBase d)) st recs).1 rest).2.1,
            (updateGo parse isCtr fileName fs
              (processRecords isCtr (sanitizeP8sName (goFilepathBase d)) st recs).1 rest).2.2)) := rfl

theorem updateGo_open (parse : String → Option (List Metric)) (isCtr : String → Labels → Bool)
    (fileName : String) (fs : String → Option String) (st : FcState) (d : String)
    (rest : List String) (h : fs (goJoin d fileName) = none) :
    updateGo parse isCtr fileName fs st (d :: rest) = (st, [], some (.openFailed d)) := by
  simp only [updateGo_cons, h]

theorem updateGo_parsefail (parse : String → Option (List Metric))
    (isCtr : String → Labels → Bool) (fileName : String) (fs : String → Option String)
    (st : FcState) (d : String) (rest : List String) (content : String)
    (h1 : fs (goJoin d fileName) = some content) (h2 : parse content = none) :
    updateGo parse isCtr fileName fs st (d :: rest) = (st, [], some (.parseFailed d)) := by
  simp only [updateGo_cons, h1, h2]

theorem updateGo_ok (parse : String → Option (List Metric)) (isCtr : String → Labels → Bool)
    (fileName : String) (fs : String → Option String) (st : FcState) (d : String)
    (rest : List String) (content : String) (recs : List Metric)
    (h1 : fs (goJoin d fileName) = some content) (h2 : parse content = some recs) :
    updateGo parse isCtr fileName fs st (d :: rest) =
      ((updateGo parse isCtr fileName fs
          (processRecords isCtr (sanitizeP8sName (goFilepathBase d)) st recs).1 rest).1,
       (processRecords isCtr (sanitizeP8sName (goFilepathBase d)) st recs).2 ++
         (updateGo parse isCtr fileName fs
           (processRecords isCtr (sanitizeP8sName (goFilepathBase d)) st recs).1 rest).2.1,
       (updateGo parse isCtr fileName fs
         (processRecords isCtr (sanitizeP8sName (goFilepathBase d)) st recs).1 rest).2.2) := by
  simp only [updateGo_cons, h1, h2]

theorem dirProv_weaken (parse : String → Option (List Metric)) (fileName : String)
    (fs : String → Option String) (isCtr : String → Labels → Bool) (d : String)
    (rest : List String) (n : String) (c : Labels) (k : VecKind)
    (h : dirProv parse fileName fs isCtr rest n c k) :
    dirProv parse fileName fs isCtr (d :: rest) n c k := by
  obtain ⟨d', hd', recs, hdr, r, hr, h1, h2, h3⟩ := h
  exact ⟨d', List.mem_cons_of_mem d hd', recs, hdr, r, hr, h1, h2, h3⟩

theorem updateGo_spec (parse : String → Option (List Metric)) (isCtr : String → Labels → Bool)
    (fileName : String) (fs : String → Option String) (P : String → Labels → VecKind → Prop) :
    ∀ (dirs : List String) (st : FcState),
      (∀ n c k, stateHas st n c k → P n c k) →
      (∀ n c k, dirProv parse fileName fs isCtr dirs n c k → P n c k) →
      (∀ s ∈ (updateGo parse isCtr fileName fs st dirs).2.1, P s.name s.labels s.kind) ∧
      ((updateGo parse isCtr fileName fs st dirs).2.2 = none →
        ∀ d ∈ dirs, ∀ recs, dirRecords parse fileName fs d = some recs →
          ∀ r ∈ recs, ∃ s ∈ (updateGo parse isCtr fileName fs st dirs).2.1,
            s.name = sanitizeP8sName r.name ∧
            s.labels = ("cgroup", sanitizeP8sName (goFilepathBase d)) :: r.labels ∧
            s.kind = kindOf (isCtr (sanitizeP8sName r.name) r.labels)) := by
  intro dirs
  induction dirs with
  | nil =>
    intro st hst hP
    exact ⟨fun s hs => absurd hs (List.not_mem_nil _),
      fun _ d hd => absurd hd (List.not_mem_nil _)⟩
  | cons d rest ih =>
    intro st hst hP
    cases hfs : fs (goJoin d fileName) with
    | none =>
      rw [updateGo_open parse isCtr fileName fs st d rest hfs]
      refine ⟨fun s hs => absurd hs (List.not_mem_nil _), fun herr => ?_⟩
      exact Option.noConfusion herr
    | some content =>
      cases hp : parse content with
      | none =>
        rw [updateGo_parsefail parse isCtr fileName fs st d rest content hfs hp]
        refine ⟨fun s hs => absurd hs (List.not_mem_nil _), fun herr => ?_⟩
        exact Option.noConfusion herr
      | some recs =>
        rw [updateGo_ok parse isCtr fileName fs st d rest content recs hfs hp]
        have hdr : dirRecords parse fileName fs d = some recs := by
          unfold dirRecords
          rw [hfs]
          exact hp
        have hall : ∀ r ∈ recs,
            P (sanitizeP8sName r.name)
              (("cgroup", sanitizeP8sName (goFilepathBase d)) :: r.labels)
              (kindOf (isCtr (sanitizeP8sName r.name) r.labels)) := by
          intro r hr
          exact hP _ _ _ ⟨d, List.mem_cons_self d rest, recs, hdr, r, hr, rfl, rfl, rfl⟩
        obtain ⟨p1, p2, p3⟩ :=
          processRecords_spec isCtr (sanitizeP8sName (goFilepathBase d)) P recs st hst hall
        obtain ⟨q1, q2⟩ :=
          ih (processRecords isCtr (sanitizeP8sName (goFilepathBase d)) st recs).1 p1
            (fun n c k hp' => hP n c k (dirProv_weaken parse fileName fs isCtr d rest n c k hp'))
        refine ⟨?_, ?_⟩
        · intro s hs
          rcases List.mem_append.mp hs with h2 | h2
          exacts [p2 s h2, q1 s h2]
        · intro herr d' hd' recs' hdr' r hr
          rcases List.mem_cons.mp hd' with rfl | hd2
          · rw [hdr] at hdr'
            obtain rfl : recs = recs' := Option.some.inj hdr'
            obtain ⟨s, hs, hss⟩ := p3 r hr
            exact ⟨s, List.mem_append.mpr (Or.inl hs), hss⟩
          · obtain ⟨s, hs, hss⟩ := q2 herr d' hd2 recs' hdr' r hr
            exact ⟨s, List.mem_append.mpr (Or.inr hs), hss⟩

/-- C1 (spec-modelled): in a File Collector scrape, every metric
record produced by the parser for a directory is recorded — and
emitted as a sample — in the vector selected by `is_counter(name,
labels)`, named by the sanitized record name, under the label
combination `cgroup = sanitized directory base name` followed by the
record's own labels; conversely every emitted sample carries exactly
such a label combination for some parsed record, so every sample
carries both the cgroup label and the record's labels. -/
theorem update_claim (parse : String → Option (List Metric)) (isCtr : String → Labels → Bool)
    (fileName : String) (fs : String → Option String) (dirs : List String) :
    (∀ s ∈ (fcUpdate parse isCtr fileName fs dirs).2.1,
      dirProv parse fileName fs isCtr dirs s.name s.labels s.kind) ∧
    ((fcUpdate parse isCtr fileName fs dirs).2.2 = none →
      ∀ d ∈ dirs, ∀ recs, dirRecords parse fileName fs d = some recs →
        ∀ r ∈ recs, ∃ s ∈ (fcUpdate parse isCtr fileName fs dirs).2.1,
          s.name = sanitizeP8sName r.name ∧
          s.labels = ("cgroup", sanitizeP8sName (goFilepathBase d)) :: r.labels ∧
          s.kind = kindOf (isCtr (sanitizeP8sName r.name) r.labels)) :=
  updateGo_spec parse isCtr fileName fs (dirProv parse fileName fs isCtr dirs) dirs emptyFcState
    (fun n c k hsh => absurd hsh (stateHas_empty n c k)) (fun _ _ _ hp => hp)

theorem update_claim_witness :
    ∃ s ∈ (fcUpdate (flatKeyValueParse "memory_stat") (fun _ _ => false) "memory.stat"
        (fun p => if p = "/sys/fs/cgroup/mygrp/memory.stat" then some "cache 100\n" else none)
        ["/sys/fs/cgroup/mygrp"]).2.1,
      s.name = sanitizeP8sName "memory_stat" ∧
      s.labels = ("cgroup", sanitizeP8sName (goFilepathBase "/sys/fs/cgroup/mygrp")) ::
        [("stat", "cache")] ∧
      s.kind = kindOf false := by
  have h := (update_claim (flatKeyValueParse "memory_stat") (fun _ _ => false) "memory.stat"
    (fun p => if p = "/sys/fs/cgroup/mygrp/memory.stat" then some "cache 100\n" else none)
    ["/sys/fs/cgroup/mygrp"]).2 (by decide) "/sys/fs/cgroup/mygrp" (by decide)
    [⟨"memory_stat", .finite (mkRat 100 1), [("stat", "cache")]⟩] (by decide)
    ⟨"memory_stat", .finite (mkRat 100 1), [("stat", "cache")]⟩ (by decide)
  exact h

/-- C10: the File Collector's `Update` never returns the `ErrNoData`
sentinel; when every tracked file opens and parses successfully it
returns nil — even when zero records are produced — so the
instrumentation success indicator is `1` and the success-0 "ran but
empty" classification is unreachable. -/
theorem no_noData_claim (parse : String → Option (List Metric)) (isCtr : String → Labels → Bool)
    (fileName : String) (fs : String → Option String) (dirs : List String) :
    ((fcUpdate parse isCtr fileName fs dirs).2.2 ≠ some UpdateErr.noData) ∧
    ((∀ d ∈ dirs, dirRecords parse fileName fs d ≠ none) →
      (fcUpdate parse isCtr fileName fs dirs).2.2 = none ∧
      successVal (fcUpdate parse isCtr fileName fs dirs).2.2 = .finite 1) := by
  have hgen : ∀ (ds : List String) (st : FcState),
      ((updateGo parse isCtr fileName fs st ds).2.2 ≠ some UpdateErr.noData) ∧
      ((∀ d ∈ ds, dirRecords parse fileName fs d ≠ none) →
        (updateGo parse isCtr fileName fs st ds).2.2 = none) := by
    intro ds
    induction ds with
    | nil => intro st; exact ⟨fun h => Option.noConfusion h, fun _ => rfl⟩
    | cons d rest ih =>
      intro st
      cases hfs : fs (goJoin d fileName) with
      | none =>
        rw [updateGo_open parse isCtr fileName fs st d rest hfs]
        constructor
        · intro h
          exact UpdateErr.noConfusion (Option.some.inj h)
        · intro hall
          exfalso
          refine hall d (List.mem_cons_self d rest) ?_
          unfold dirRecords
          rw [hfs]
      | some content =>
        cases hp : parse content with
        | none =>
          rw [updateGo_parsefail parse isCtr fileName fs st d rest content hfs hp]
          constructor
          · intro h
            exact UpdateErr.noConfusion (Option.some.inj h)
          · intro hall
            exfalso
            refine hall d (List.mem_cons_self d rest) ?_
            unfold dirRecords
            rw [hfs]
            exact hp
        | some recs =>
          rw [updateGo_ok parse isCtr fileName fs st d rest content recs hfs hp]
          constructor
          · exact (ih (processRecords isCtr (sanitizeP8sName (goFilepathBase d)) st recs).1).1
          · intro hall
            exact (ih (processRecords isCtr (sanitizeP8sName (goFilepathBase d)) st recs).1).2
              (fun d' hd' => hall d' (List.mem_cons_of_mem d hd'))
  refine ⟨(hgen dirs emptyFcState).1, fun hall => ?_⟩
  have hnone := (hgen dirs emptyFcState).2 hall
  refine ⟨hnone, ?_⟩
  show successVal (updateGo parse isCtr fileName fs emptyFcState dirs).2.2 = .finite 1
  rw [hnone]
  rfl

theorem no_noData_claim_witness :
    (fcUpdate (flatKeyValueParse "memory_stat") (fun _ _ => false) "memory.stat"
        (fun _ => some "") ["g"]).2.1 = [] ∧
    (fcUpdate (flatKeyValueParse "memory_stat") (fun _ _ => false) "memory.stat"
        (fun _ => some "") ["g"]).2.2 = none ∧
    successVal (fcUpdate (flatKeyValueParse "memory_stat") (fun _ _ => false) "memory.stat"
        (fun _ => some "") ["g"]).2.2 = .finite 1 := by
  have h := (no_noData_claim (flatKeyValueParse "memory_stat") (fun _ _ => false) "memory.stat"
    (fun _ => some "") ["g"]).2 (by decide)
  exact ⟨by decide, h.1, h.2⟩

theorem flatKeyValue_claim_witness :
    flatKeyValueParse "memory_events" "low 0\nbad line here\nhigh 5335362\n" =
      some [⟨"memory_events", .finite (mkRat 0 1), [("stat", "low")]⟩,
        ⟨"memory_events", .finite (mkRat 5335362 1), [("stat", "high")]⟩] ∧
    (["low 0", "bad line", "high 5335362"].flatMap (flatLine "memory_events")).length + 1 =
      (["low 0", "max 0", "high 5335362"].flatMap (flatLine "memory_events")).length :=
  ⟨by decide,
   (flatKeyValue_claim "memory_events" "low 0\nbad line here\nhigh 5335362\n").2
     ["low 0"] "bad line" "max 0" ["high 5335362"] (by decide) (by decide)⟩

end Cgv2
